import Mathlib

/-!
# logstalker: log normalisation layer

A shallow embedding of `parsers.go` and of the bucketing, table creation and
streaming parts of `bigquery.go`.

* Go strings are modelled as lists of characters (`Str`): a line is taken to be
  valid UTF-8, where cutting at the ASCII separators of the program gives the
  same pieces by character as by byte.
* `map[string]T` is modelled as a partial function on keys (`GoMap`) with the
  map operations the program uses: lookup, assignment and `delete`.
* A run-time panic (failed type assertion, index out of range, write to a nil
  map) is modelled explicitly: helpers return `Option` (`none` is a panic) and
  the three format parsers return an `Outcome`.
* `json.Unmarshal` and `time.Now` belong to the environment: the decoder is a
  parameter of the two JSON parsers and the current instant is a parameter of
  the error parser, of `stream` and of `createUpcomingDaysTables`.
* The calls to the BigQuery service are modelled as values: `stream` and
  `createTable` return the call they make.
* `createUpcomingDaysTables` adds durations to an instant, so its clock is an
  `Instant` (seconds since the Unix epoch, read in a `Location`); the parsers
  only read and write calendar fields (`Time`).
-/

namespace Logstalker

/-- Go `string`. -/
abbrev Str := List Char

/-- A Go string constant. -/
def goString (s : String) : Str := s.toList

instance : Coe String Str := ⟨goString⟩

/-! ## Package `strings` -/

/-- Go `strings.Index`: position of the first occurrence of `substr` in `s`. -/
def Index : Str → Str → Option Nat
  | [], substr => if substr.isPrefixOf [] then some 0 else none
  | c :: s, substr =>
    if substr.isPrefixOf (c :: s) then some 0 else (Index s substr).map (· + 1)

/-- Go `strings.Contains`. -/
def Contains (s substr : Str) : Bool := (Index s substr).isSome

/-- Go `strings.genSplit` for a non-empty separator, after the piece count has
been fixed: at most `cuts` cuts are made, each at the first occurrence of `sep`
in what is left, and `sepSave` characters of the separator stay with the piece. -/
def genSplit (sep : Str) (sepSave : Nat) : Nat → Str → List Str
  | 0, s => [s]
  | cuts + 1, s =>
    match Index s sep with
    | none => [s]
    | some m => s.take (m + sepSave) :: genSplit sep sepSave cuts (s.drop (m + sep.length))

/-- Go `strings.Split(s, sep)`: every occurrence is cut (a string of length `n`
has at most `n` occurrences of a non-empty separator). -/
def Split (s sep : Str) : List Str := genSplit sep 0 s.length s

/-- Go `strings.SplitN(s, sep, n)` for `n > 0`: at most `n` pieces. -/
def SplitN (s sep : Str) (n : Nat) : List Str := genSplit sep 0 (n - 1) s

/-- Go `strings.SplitAfter(s, sep)`: as `Split`, the separator stays at the end
of each piece. -/
def SplitAfter (s sep : Str) : List Str := genSplit sep sep.length s.length s

/-- Replacement loop of `strings.Replace`: up to `n` occurrences, left to right. -/
def replaceLoop (old new : Str) : Nat → Str → Str
  | 0, s => s
  | n + 1, s =>
    match Index s old with
    | none => s
    | some m => s.take m ++ new ++ replaceLoop old new n (s.drop (m + old.length))

/-- Go `strings.Replace(s, old, new, -1)` for a non-empty `old`. -/
def Replace (s old new : Str) : Str := replaceLoop old new s.length s

/-! ## Maps and JSON values -/

/-- Go `map[string]β`: the value stored under each key, if any. -/
abbrev GoMap (β : Type) := Str → Option β

namespace GoMap

variable {β : Type}

/-- The empty map `make(map[string]β)`. -/
def empty : GoMap β := fun _ => none

/-- Lookup `m[k]` with the comma-ok flag folded into `Option`. -/
def get (m : GoMap β) (k : Str) : Option β := m k

/-- Go `delete(m, k)`. -/
def delete (m : GoMap β) (k : Str) : GoMap β := fun j => if j = k then none else m j

/-- Assignment `m[k] = v`. -/
def set (m : GoMap β) (k : Str) (v : β) : GoMap β := fun j => if j = k then some v else m j

end GoMap

/-- A `bigquery.JsonValue` (`interface{}`) as `encoding/json` produces it in a
`map[string]interface{}`: a string, a number (held by its literal), a boolean,
`nil`, or a nested array or object (held by its source text). -/
inductive JsonValue
  | str (s : Str)
  | num (lit : Str)
  | bool (b : Bool)
  | null
  | composite (raw : Str)
deriving DecidableEq, Repr

/-- The record type `map[string]bigquery.JsonValue`. -/
abbrev Record := GoMap JsonValue

/-- The single-value type assertion `lineData[k].(string)`: it panics (`none`)
when the key is missing or holds anything but a string. -/
def assertString (lineData : Record) (k : Str) : Option Str :=
  match lineData.get k with
  | some (JsonValue.str s) => some s
  | _ => none

/-! ## The request-line splitter -/

/-- Go `parseRawRequest`. -/
def parseRawRequest (lineData : Record) : Option Record := do
  let request ← assertString lineData "request"
  let requestPieces := Split request " "
  let lineData ←
    if requestPieces.length = 3 then do
      let lineData := lineData.set "method" (JsonValue.str (← requestPieces[0]?))
      let token ← requestPieces[1]?
      if Contains token "?" then do
        let pathPieces := SplitAfter token "?"
        let lineData := lineData.set "path" (JsonValue.str (Replace (← pathPieces[0]?) "?" ""))
        pure (lineData.set "query" (JsonValue.str (← pathPieces[1]?)))
      else
        pure (lineData.set "path" (JsonValue.str token))
    else
      pure lineData
  pure (lineData.delete "request")

/-! ## Package `time` -/

/-- A `time.Time` by its calendar fields in its own location. -/
structure Time where
  year : Nat
  month : Nat
  day : Nat
  hour : Nat
  min : Nat
  sec : Nat
  nsec : Nat
deriving DecidableEq, Repr

/-- The field kinds (`std...` chunks of package `time`) that occur in the layouts
of this program. -/
inductive Std
  | longYear
  | zeroMonth
  | month
  | zeroDay
  | hour
  | zeroMinute
  | zeroSecond
deriving DecidableEq, Repr

/-- A layout string as `nextStdChunk` cuts it: each field with the literal text
in front of it, then the literal text after the last field. -/
structure Layout where
  chunks : List (Str × Std)
  suffix : Str

/-- The layout `"2006-01-02 15:04:05"`. -/
def bigQueryTimeFormat : Layout :=
  ⟨[("", Std.longYear), ("-", Std.zeroMonth), ("-", Std.zeroDay), (" ", Std.hour),
    (":", Std.zeroMinute), (":", Std.zeroSecond)], ""⟩

/-- The layout `"02/Jan/2006:15:04:05 +0000"`; `" +0000"` holds no field. -/
def nginxAccessLayout : Layout :=
  ⟨[("", Std.zeroDay), ("/", Std.month), ("/", Std.longYear), (":", Std.hour),
    (":", Std.zeroMinute), (":", Std.zeroSecond)], " +0000"⟩

/-- The layout `"2006/01/02 15:04:05"`. -/
def nginxErrorLayout : Layout :=
  ⟨[("", Std.longYear), ("/", Std.zeroMonth), ("/", Std.zeroDay), (" ", Std.hour),
    (":", Std.zeroMinute), (":", Std.zeroSecond)], ""⟩

/-- The layout `"20060102"`. -/
def dayLayout : Layout :=
  ⟨[("", Std.longYear), ("", Std.zeroMonth), ("", Std.zeroDay)], ""⟩

/-- Go `shortMonthNames`. -/
def shortMonthNames : List Str :=
  ["Jan", "Feb", "Mar", "Apr", "May", "Jun", "Jul", "Aug", "Sep", "Oct", "Nov", "Dec"].map
    String.toList

/-- Go `isDigit` on one character. -/
def isDigit (c : Char) : Bool := decide ('0' ≤ c) && decide (c ≤ '9')

/-- The value `c - '0'` of a digit. -/
def digitVal (c : Char) : Nat := c.toNat - 48

/-- The character `'0' + d` of a decimal digit `d < 10`. -/
def digitChar (d : Nat) : Char := "0123456789".toList.getD d '0'

/-- Decimal digits of `x`, least significant first. -/
def digitsRev : Nat → Nat → Str
  | 0, _ => []
  | fuel + 1, x => digitChar (x % 10) :: (if x < 10 then [] else digitsRev fuel (x / 10))

/-- Go `appendInt(b, x, width)` for `x ≥ 0`: the decimal digits of `x`, zero-padded
on the left to `width`. -/
def appendInt (x width : Nat) : Str :=
  let digits := (digitsRev (x + 1) x).reverse
  List.replicate (width - digits.length) '0' ++ digits

/-- One field of `Time.Format`. -/
def formatStd (t : Time) : Std → Str
  | Std.longYear => appendInt t.year 4
  | Std.zeroMonth => appendInt t.month 2
  | Std.month => shortMonthNames.getD (t.month - 1) []
  | Std.zeroDay => appendInt t.day 2
  | Std.hour => appendInt t.hour 2
  | Std.zeroMinute => appendInt t.min 2
  | Std.zeroSecond => appendInt t.sec 2

/-- Go `Time.Format`. -/
def Format (t : Time) (layout : Layout) : Str :=
  (layout.chunks.map (fun c => c.1 ++ formatStd t c.2)).flatten ++ layout.suffix

/-- Go `isLeap`. -/
def isLeap (year : Nat) : Bool := year % 4 = 0 && (year % 100 != 0 || year % 400 = 0)

/-- Go `daysBefore`. -/
def daysBefore : List Nat := [0, 31, 59, 90, 120, 151, 181, 212, 243, 273, 304, 334, 365]

/-- Go `daysIn`. -/
def daysIn (m year : Nat) : Nat :=
  if m = 2 ∧ isLeap year = true then 29 else daysBefore.getD m 0 - daysBefore.getD (m - 1) 0

/-- Go `cutspace`. -/
def cutspace : Str → Str
  | [] => []
  | c :: s => if c = ' ' then cutspace s else c :: s

/-- The loop of Go `skip`: `value` must start with `pre`, where a run of blanks
in `pre` stands for any run of blanks in `value`. -/
def skipLoop : Nat → Str → Str → Option Str
  | _, value, [] => some value
  | 0, _, _ :: _ => none
  | fuel + 1, value, p :: pre =>
    if p = ' ' then
      match value with
      | [] => skipLoop fuel [] (cutspace pre)
      | v :: rest =>
        if v ≠ ' ' then none else skipLoop fuel (cutspace (v :: rest)) (cutspace pre)
    else
      match value with
      | [] => none
      | v :: rest => if v ≠ p then none else skipLoop fuel rest pre

/-- Go `skip`. -/
def skip (value pre : Str) : Option Str := skipLoop pre.length value pre

/-- Go `getnum`: one or two digits, exactly two when `fixed`. -/
def getnum (s : Str) (fixed : Bool) : Option (Nat × Str) :=
  match s with
  | [] => none
  | [c] => if isDigit c && !fixed then some (digitVal c, []) else none
  | c :: d :: rest =>
    if !isDigit c then none
    else if !isDigit d then (if fixed then none else some (digitVal c, d :: rest))
    else some (digitVal c * 10 + digitVal d, rest)

/-- Go `match` on one pair of characters: equal, or the same letter in another case. -/
def matchChar (c1 c2 : Char) : Bool :=
  c1 = c2 ||
    (c1.toNat ||| 32 = c2.toNat ||| 32 && 97 ≤ (c1.toNat ||| 32) && (c1.toNat ||| 32) ≤ 122)

/-- Go `match`: equality of two strings of the same length, ignoring case. -/
def matchFold : Str → Str → Bool
  | c1 :: s1, c2 :: s2 => matchChar c1 c2 && matchFold s1 s2
  | _, _ => true

/-- Go `lookup`: index of the first table entry that `val` starts with. -/
def lookup : List Str → Str → Option (Nat × Str)
  | [], _ => none
  | v :: tab, val =>
    if v.length ≤ val.length && matchFold (val.take v.length) v then
      some (0, val.drop v.length)
    else (lookup tab val).map (fun r => (r.1 + 1, r.2))

/-- The number a string of digits denotes. -/
def digitsVal (s : Str) : Nat := s.foldl (fun n c => n * 10 + digitVal c) 0

/-- Go `parseNanoseconds` on the digits after the separator: at most nine are
used, scaled to nanoseconds. -/
def parseNanoseconds (digits : Str) : Nat :=
  digitsVal (digits.take 9) * 10 ^ (9 - (digits.take 9).length)

/-- One field of `time.Parse`: the `switch std` of its loop. A seconds field
also takes a fraction (`.` or `,` and digits) that the layout does not have. -/
def parseStd (std : Std) (value : Str) (t : Time) : Option (Time × Str) :=
  match std with
  | Std.longYear =>
    match value with
    | a :: b :: c :: d :: rest =>
      if isDigit a && isDigit b && isDigit c && isDigit d then
        some ({ t with year := digitsVal [a, b, c, d] }, rest)
      else none
    | _ => none
  | Std.zeroMonth =>
    match getnum value true with
    | some (month, rest) => if month = 0 ∨ 12 < month then none else some ({ t with month := month }, rest)
    | none => none
  | Std.month =>
    match lookup shortMonthNames value with
    | some (i, rest) => some ({ t with month := i + 1 }, rest)
    | none => none
  | Std.zeroDay =>
    match getnum value true with
    | some (day, rest) => some ({ t with day := day }, rest)
    | none => none
  | Std.hour =>
    match getnum value false with
    | some (hour, rest) => if 24 ≤ hour then none else some ({ t with hour := hour }, rest)
    | none => none
  | Std.zeroMinute =>
    match getnum value true with
    | some (min, rest) => if 60 ≤ min then none else some ({ t with min := min }, rest)
    | none => none
  | Std.zeroSecond =>
    match getnum value true with
    | some (sec, rest) =>
      if 60 ≤ sec then none
      else
        match rest with
        | p :: d :: more =>
          if (p = '.' || p = ',') && isDigit d then
            some ({ t with sec := sec, nsec := parseNanoseconds ((d :: more).takeWhile isDigit) },
              (d :: more).dropWhile isDigit)
          else some ({ t with sec := sec }, rest)
        | _ => some ({ t with sec := sec }, rest)
    | none => none

/-- The loop of `time.Parse` over the fields of the layout. -/
def parseChunks : List (Str × Std) → Str → Time → Option (Time × Str)
  | [], value, t => some (t, value)
  | (pre, std) :: chunks, value, t =>
    match skip value pre with
    | none => none
    | some value =>
      match parseStd std value t with
      | none => none
      | some (t, value) => parseChunks chunks value t

/-- Go `time.Parse(layout, value)` for a layout without a zone: `none` is a
parse error; the result is in UTC. A missing month or day would default to 1;
the day of the month is validated at the end. -/
def Parse (layout : Layout) (value : Str) : Option Time :=
  match parseChunks layout.chunks value ⟨0, 1, 1, 0, 0, 0, 0⟩ with
  | none => none
  | some (t, value) =>
    match skip value layout.suffix with
    | none => none
    | some rest =>
      if rest ≠ [] then none
      else if t.day < 1 ∨ daysIn t.month t.year < t.day then none
      else some t

/-! ## `bigquery.go`: the table bucketer -/

/-- Go `tableNameFromTime`. -/
def tableNameFromTime (t : Time) : Str := "logs_" ++ Format t dayLayout

/-! ## `parsers.go`: timestamp normalisers -/

/-- Go `parseNginxAccessTimestamp`. -/
def parseNginxAccessTimestamp (lineData : Record) : Option Record := do
  let raw ← assertString lineData "timestamp"
  match Parse nginxAccessLayout raw with
  | some t =>
    pure ((lineData.set "timestamp" (JsonValue.str (Format t bigQueryTimeFormat))).set
      "tableName" (JsonValue.str (tableNameFromTime t)))
  | none => pure lineData

/-- Go `parseNginxErrorTimestamp`. -/
def parseNginxErrorTimestamp (raw : Str) (lineData : Record) : Record :=
  match Parse nginxErrorLayout raw with
  | some t =>
    (lineData.set "timestamp" (JsonValue.str (Format t bigQueryTimeFormat))).set
      "tableName" (JsonValue.str (tableNameFromTime t))
  | none => lineData

/-- Go `parseTableNameForRails`. -/
def parseTableNameForRails (lineData : Record) : Option Record := do
  let raw ← assertString lineData "timestamp"
  match Parse bigQueryTimeFormat raw with
  | some t => pure (lineData.set "tableName" (JsonValue.str (tableNameFromTime t)))
  | none => pure lineData

/-! ## `parsers.go`: the format parsers -/

/-- What `json.Unmarshal([]byte(logLine), &lineData)` leaves behind for a fresh
map `lineData`. -/
inductive Unmarshalled
  /-- The error is `nil` and the map holds the members of the JSON object. -/
  | object (lineData : Record)
  /-- The input is JSON `null`: the error is `nil` and the map is set to `nil`. -/
  | nilMap
  /-- The error is not `nil`. -/
  | failed (lineData : Record)

/-- The JSON decoder as the parsers see it. -/
abbrev Unmarshal := Str → Unmarshalled

/-- Result of a format parser `(map[string]bigquery.JsonValue, error)`. -/
inductive Outcome
  /-- A record and a `nil` error. -/
  | ok (lineData : Record)
  /-- A non-`nil` error (with the map as the decoder left it). -/
  | err (lineData : Record)
  /-- A run-time panic: the call does not return. -/
  | panic

/-- The test `v == "-" || v == ""` on an interface value. -/
def isBlank (v : JsonValue) : Bool := v = JsonValue.str "-" || v = JsonValue.str ""

/-- Go `parseNginxAccessLine`. The closing `range` loop deletes the entry it is
visiting, which Go allows: every entry is visited once, so the loop removes
exactly the entries that hold `"-"` or `""`. -/
def parseNginxAccessLine (unmarshal : Unmarshal) (host logLine : Str) : Outcome :=
  match unmarshal logLine with
  | Unmarshalled.failed lineData => Outcome.err lineData
  | Unmarshalled.nilMap => Outcome.panic
  | Unmarshalled.object lineData =>
    let lineData := lineData.set "host" (JsonValue.str host)
    let lineData := lineData.set "log_type" (JsonValue.str "nginx-access")
    match parseRawRequest lineData with
    | none => Outcome.panic
    | some lineData =>
      match parseNginxAccessTimestamp lineData with
      | none => Outcome.panic
      | some lineData => Outcome.ok (fun k => (lineData.get k).filter (fun v => !isBlank v))

/-- Go `parseNginxErrorHeader`; `now` is what `time.Now()` returns. -/
def parseNginxErrorHeader (now : Time) (header : Str) (lineData : Record) : Option Record :=
  if Contains header " [error] " then
    let headerPieces := Split header " [error] "
    if headerPieces.length = 2 then do
      let lineData := parseNginxErrorTimestamp (← headerPieces[0]?) lineData
      let msgPieces := SplitN (← headerPieces[1]?) " " 3
      if msgPieces.length = 3 then
        pure (lineData.set "message" (JsonValue.str (Replace (← msgPieces[2]?) "\"" "")))
      else
        pure lineData
    else
      pure lineData
  else
    let lineData := lineData.set "message" (JsonValue.str (Replace header "\"" ""))
    let lineData := lineData.set "timestamp" (JsonValue.str (Format now bigQueryTimeFormat))
    pure (lineData.set "tableName" (JsonValue.str (tableNameFromTime now)))

/-- Body of the clause loop of `parseNginxErrorLine`. -/
def addParam (params : GoMap Str) (clause : Str) : Option (GoMap Str) :=
  let paramPieces := Split clause ": "
  if paramPieces.length = 2 then do
    pure (params.set (← paramPieces[0]?) (Replace (← paramPieces[1]?) "\"" ""))
  else
    pure params

/-- The loop `for i := 1; i <= len(errorPieces[1:]); i++` with `n` rounds to go. -/
def paramsLoop (errorPieces : List Str) : Nat → Nat → GoMap Str → Option (GoMap Str)
  | 0, _, params => some params
  | n + 1, i, params => do
    let params ← addParam params (← errorPieces[i]?)
    paramsLoop errorPieces n (i + 1) params

/-- Go `parseNginxErrorLine` up to its last two assignments. -/
def parseNginxErrorFields (now : Time) (logLine : Str) : Option Record := do
  let errorPieces := Split logLine ", "
  let lineData ← parseNginxErrorHeader now (← errorPieces[0]?) GoMap.empty
  let params ← paramsLoop errorPieces (errorPieces.drop 1).length 1 GoMap.empty
  let lineData :=
    match params.get "client" with
    | some IP => lineData.set "ip" (JsonValue.str IP)
    | none => lineData
  let lineData :=
    match params.get "host" with
    | some domain => lineData.set "domain" (JsonValue.str domain)
    | none => lineData
  let lineData ←
    match params.get "request" with
    | some request => parseRawRequest (lineData.set "request" (JsonValue.str request))
    | none => pure lineData
  match params.get "referrer" with
  | some referrer => pure (lineData.set "referrer" (JsonValue.str referrer))
  | none => pure lineData

/-- Go `parseNginxErrorLine`; `now` is what `time.Now()` returns. -/
def parseNginxErrorLine (now : Time) (host logLine : Str) : Outcome :=
  match parseNginxErrorFields now logLine with
  | none => Outcome.panic
  | some lineData =>
    Outcome.ok ((lineData.set "host" (JsonValue.str host)).set "log_type"
      (JsonValue.str "nginx-error"))

/-- Go `parseRailsLine`. -/
def parseRailsLine (unmarshal : Unmarshal) (host logLine : Str) : Outcome :=
  match unmarshal logLine with
  | Unmarshalled.failed lineData => Outcome.err lineData
  | Unmarshalled.nilMap => Outcome.panic
  | Unmarshalled.object lineData =>
    let lineData := lineData.set "host" (JsonValue.str host)
    let lineData := lineData.set "log_type" (JsonValue.str "rails")
    match parseTableNameForRails lineData with
    | none => Outcome.panic
    | some lineData => Outcome.ok lineData

/-! ## `main.go` and `bigquery.go`: configuration, registry, dispatcher, provisioner -/

/-- Go `logstalkerConfig`. -/
structure logstalkerConfig where
  LogFilename : Str
  JwtFilename : Str
  ServiceName : Str
  Parser : Str
  Host : Str
  ProjectID : Str
  DatasetID : Str

/-- A format parser as a value: the function from host and line, given the
decoder and the clock it reads. -/
abbrev ParserFn := Unmarshal → Time → Str → Str → Outcome

/-- Go `parsingFunctionForType`: the parser stored under the name, or the error
`Parser type not supported.` -/
def parsingFunctionForType (parserType : Str) : Except Str ParserFn :=
  let parsers : GoMap ParserFn :=
    ((GoMap.empty.set "nginx-access" (fun unmarshal _ => parseNginxAccessLine unmarshal)).set
      "nginx-error" (fun _ now => parseNginxErrorLine now)).set
      "rails" (fun unmarshal _ => parseRailsLine unmarshal)
  match parsers.get parserType with
  | some fn => Except.ok fn
  | none => Except.error "Parser type not supported."

/-- The call `tabledataService.InsertAll(projectID, datasetID, tableName, &insertRequest)`
with the one row of the request. -/
structure InsertAllCall where
  projectId : Str
  datasetId : Str
  tableId : Str
  insertId : Str
  json : Record

/-- Go `stream`: the call it makes; `insertID` is what `uuid.NewV4().String()`
returns and `now` what `time.Now()` returns. -/
def stream (config : logstalkerConfig) (insertID : Str) (now : Time) (jsonData : Record) :
    InsertAllCall :=
  let jsonData := jsonData.set "service" (JsonValue.str config.ServiceName)
  match jsonData.get "tableName" with
  | some (JsonValue.str tableName) =>
    ⟨config.ProjectID, config.DatasetID, tableName, insertID, jsonData.delete "tableName"⟩
  | _ => ⟨config.ProjectID, config.DatasetID, tableNameFromTime now, insertID, jsonData⟩

/-- A `*time.Location`: the offset from UTC, in seconds, in force at each
instant (an instant is given in seconds since the Unix epoch). -/
abbrev Location := Int → Int

/-- A `time.Time` as the program holds it: an instant, and the location in
which its calendar fields are read. -/
structure Instant where
  unix : Int
  nsec : Nat
  loc : Location

/-- Go `Time.Add` for a duration of whole seconds. -/
def Instant.Add (t : Instant) (seconds : Int) : Instant :=
  { t with unix := t.unix + seconds }

/-- Go `absDate`: year, month and day of the day that lies `days` days after
0001-01-01. -/
def absDate (days : Nat) : Nat × Nat × Nat :=
  let n400 := days / 146097
  let d := days - 146097 * n400
  let n100 := d / 36524
  let n100 := n100 - n100 / 4
  let d := d - 36524 * n100
  let n4 := d / 1461
  let d := d - 1461 * n4
  let n := d / 365
  let n := n - n / 4
  let yday := d - 365 * n
  let year := 1 + 400 * n400 + 100 * n100 + 4 * n4 + n
  if isLeap year = true ∧ yday = 31 + 29 - 1 then (year, 2, 29)
  else
    let day := if isLeap year = true ∧ yday > 31 + 29 - 1 then yday - 1 else yday
    let month := day / 31
    let stop := daysBefore.getD (month + 1) 0
    if day ≥ stop then (year, month + 2, day - stop + 1)
    else (year, month + 1, day - daysBefore.getD month 0 + 1)

/-- The calendar fields of an instant in its location (Go `Time.Date` and
`Time.Clock`), for instants from the year 1 on; 62135596800 seconds lie between
0001-01-01 and the Unix epoch. -/
def Instant.civil (t : Instant) : Time :=
  let abs := (t.unix + t.loc t.unix + 62135596800).toNat
  let date := absDate (abs / 86400)
  let secs := abs % 86400
  ⟨date.1, date.2.1, date.2.2, secs / 3600, secs % 3600 / 60, secs % 60, t.nsec⟩

/-- The call `tableService.Insert(projectID, datasetID, &table)`. -/
structure TableInsertCall where
  projectId : Str
  datasetId : Str
  tableId : Str
  fields : List (String × String)

/-- The schema of `createTable`: name and type of each field. -/
def tableFields : List (String × String) :=
  [("service", "STRING"), ("log_type", "STRING"), ("host", "STRING"), ("timestamp", "TIMESTAMP"),
    ("ip", "STRING"), ("domain", "STRING"), ("method", "STRING"), ("path", "STRING"),
    ("query", "STRING"), ("action", "STRING"), ("message", "STRING"), ("status", "INTEGER"),
    ("referrer", "STRING"), ("user_agent", "STRING"), ("user_id", "STRING"),
    ("response_time", "FLOAT")]

/-- Go `createTable`: the call it makes. -/
def createTable (config : logstalkerConfig) (tableName : Str) : TableInsertCall :=
  ⟨config.ProjectID, config.DatasetID, tableName, tableFields⟩

/-- Go `createUpcomingDaysTables`: the calls it makes, in order; `today` is
what `time.Now()` returns. -/
def createUpcomingDaysTables (config : logstalkerConfig) (today : Instant) :
    List TableInsertCall :=
  (List.range 5).map (fun i =>
    let futureDate := today.Add (3600 * 24 * (i : Int))
    createTable config (tableNameFromTime futureDate.civil))

/-! ## A reference model of `encoding/json`

The parsers take the decoder as a parameter, so what is proved about them holds
for any decoder. `jsonUnmarshal` is the decoder the examples are run with: it
follows `json.Unmarshal` into a fresh `map[string]interface{}` on text that is
valid UTF-8. -/

/-- JSON white space. -/
def isSpace (c : Char) : Bool := c = ' ' || c = '\t' || c = '\r' || c = '\n'

/-- Skip JSON white space. -/
def skipSpace (s : Str) : Str := s.dropWhile isSpace

/-- Value of a hexadecimal digit. -/
def hexVal (c : Char) : Option Nat :=
  if isDigit c then some (c.toNat - 48)
  else if 'a' ≤ c ∧ c ≤ 'f' then some (c.toNat - 87)
  else if 'A' ≤ c ∧ c ≤ 'F' then some (c.toNat - 55)
  else none

/-- Go `getu4` on the four characters after `\u`. -/
def getu4 (a b c d : Char) : Option Nat := do
  pure ((((← hexVal a) * 16 + (← hexVal b)) * 16 + (← hexVal c)) * 16 + (← hexVal d))

/-- A `\uXXXX` escape with the text after it: a surrogate pair is one
character, a lone surrogate is U+FFFD. -/
def decodeU (r : Nat) (rest : Str) : Char × Str :=
  if 0xD800 ≤ r ∧ r < 0xE000 then
    match rest with
    | '\\' :: 'u' :: a :: b :: c :: d :: more =>
      match getu4 a b c d with
      | some r1 =>
        if r < 0xDC00 ∧ 0xDC00 ≤ r1 ∧ r1 < 0xE000 then
          (Char.ofNat ((r - 0xD800) * 1024 + (r1 - 0xDC00) + 0x10000), more)
        else (Char.ofNat 0xFFFD, rest)
      | none => (Char.ofNat 0xFFFD, rest)
    | _ => (Char.ofNat 0xFFFD, rest)
  else (Char.ofNat r, rest)

/-- A JSON string after its opening quote: the decoded text and what follows
the closing quote. -/
def scanString : Nat → Str → Option (Str × Str)
  | 0, _ => none
  | _ + 1, [] => none
  | fuel + 1, c :: rest =>
    if c = '"' then some ([], rest)
    else if c = '\\' then
      match rest with
      | [] => none
      | e :: rest =>
        if e = 'u' then
          match rest with
          | a :: b :: c :: d :: rest =>
            match getu4 a b c d with
            | some r =>
              (scanString fuel (decodeU r rest).2).map (fun p => ((decodeU r rest).1 :: p.1, p.2))
            | none => none
          | _ => none
        else
          match [('"', '"'), ('\\', '\\'), ('/', '/'), ('b', Char.ofNat 8), ('f', Char.ofNat 12),
            ('n', '\n'), ('r', '\r'), ('t', '\t')].lookup e with
          | some x => (scanString fuel rest).map (fun p => (x :: p.1, p.2))
          | none => none
    else if c.toNat < 32 then none
    else (scanString fuel rest).map (fun p => (c :: p.1, p.2))

/-- A JSON number at the head of the input: its literal and what follows. -/
def scanNumber (s : Str) : Option (Str × Str) :=
  let (sign, s) := match s with
    | '-' :: rest => (['-'], rest)
    | _ => ([], s)
  let (int, s) := (s.takeWhile isDigit, s.dropWhile isDigit)
  if int = [] ∨ (int.head? = some '0' ∧ int.length ≠ 1) then none
  else
    let frac := match s with
      | '.' :: rest => some ('.' :: rest.takeWhile isDigit, rest.dropWhile isDigit)
      | _ => some ([], s)
    match frac with
    | some (frac, s) =>
      if frac.length = 1 then none
      else
        let (mark, signed) := match s with
          | 'e' :: rest => (['e'], rest)
          | 'E' :: rest => (['E'], rest)
          | _ => ([], s)
        if mark = [] then some (sign ++ int ++ frac, s)
        else
          let (esign, digits) := match signed with
            | '+' :: rest => (['+'], rest)
            | '-' :: rest => (['-'], rest)
            | _ => ([], signed)
          if digits.takeWhile isDigit = [] then none
          else some (sign ++ int ++ frac ++ mark ++ esign ++ digits.takeWhile isDigit,
            digits.dropWhile isDigit)
    | none => none

/-- Whether a number literal is beyond `float64`, where `strconv.ParseFloat`
reports a range error: its absolute value is at least `2^1024 - 2^970`, which
is `(2^54 - 1) * 2^970`. -/
def outOfRange (lit : Str) : Bool :=
  let head := lit.takeWhile (fun c => c ≠ 'e' && c ≠ 'E')
  let expo := (lit.dropWhile (fun c => c ≠ 'e' && c ≠ 'E')).drop 1
  let fracLen := (head.dropWhile (fun c => c ≠ '.')).length - 1
  let e := digitsVal (expo.filter isDigit)
  let m := digitsVal (head.filter isDigit)
  let limit := (2 ^ 54 - 1) <<< 970
  if expo.head? = some '-' then decide (limit * 10 ^ (e + fracLen) ≤ m)
  else if fracLen ≤ e then decide (limit ≤ m * 10 ^ (e - fracLen))
  else decide (limit * 10 ^ (fracLen - e) ≤ m)

/-- Scanning mode of `scanJson`. -/
inductive ScanMode
  | value
  | elements
  | members
deriving DecidableEq, Repr

/-- Validate JSON text at the head of the input and return what follows: one
value, or the rest of an array after `[`, or the rest of an object after `{`. -/
def scanJson : Nat → ScanMode → Str → Option Str
  | 0, _, _ => none
  | fuel + 1, ScanMode.value, s =>
    match s with
    | [] => none
    | c :: rest =>
      if c = '"' then (scanString (rest.length + 1) rest).map (fun p => p.2)
      else if c = '[' then
        match skipSpace rest with
        | ']' :: more => some more
        | more => scanJson fuel ScanMode.elements more
      else if c = '{' then
        match skipSpace rest with
        | '}' :: more => some more
        | more => scanJson fuel ScanMode.members more
      else if ("true" : Str).isPrefixOf s then some (s.drop 4)
      else if ("false" : Str).isPrefixOf s then some (s.drop 5)
      else if ("null" : Str).isPrefixOf s then some (s.drop 4)
      else (scanNumber s).map (fun p => p.2)
  | fuel + 1, ScanMode.elements, s =>
    match scanJson fuel ScanMode.value s with
    | none => none
    | some rest =>
      match skipSpace rest with
      | ',' :: more => scanJson fuel ScanMode.elements (skipSpace more)
      | ']' :: more => some more
      | _ => none
  | fuel + 1, ScanMode.members, s =>
    match s with
    | '"' :: rest =>
      match scanString (rest.length + 1) rest with
      | none => none
      | some (_, rest) =>
        match skipSpace rest with
        | ':' :: more =>
          match scanJson fuel ScanMode.value (skipSpace more) with
          | none => none
          | some rest =>
            match skipSpace rest with
            | ',' :: more => scanJson fuel ScanMode.members (skipSpace more)
            | '}' :: more => some more
            | _ => none
        | _ => none
    | _ => none

/-- The `interface{}` a valid JSON value decodes to, and whether decoding it
reports a range error (the value stored is then `nil`). -/
def decodeValue (s : Str) : Option (JsonValue × Bool × Str) :=
  match scanJson (2 * s.length + 2) ScanMode.value s with
  | none => none
  | some rest =>
    match s with
    | [] => none
    | c :: body =>
      if c = '"' then (scanString (body.length + 1) body).map (fun p => (JsonValue.str p.1, false, p.2))
      else if c = '[' ∨ c = '{' then
        some (JsonValue.composite (s.take (s.length - rest.length)), false, rest)
      else if c = 't' then some (JsonValue.bool true, false, rest)
      else if c = 'f' then some (JsonValue.bool false, false, rest)
      else if c = 'n' then some (JsonValue.null, false, rest)
      else
        let lit := s.take (s.length - rest.length)
        if outOfRange lit then some (JsonValue.null, true, rest)
        else some (JsonValue.num lit, false, rest)

/-- The members of a JSON object after `{` and white space, stored into `m` in
source order. -/
def decodeMembers : Nat → Str → Record → Bool → Option (Record × Bool × Str)
  | 0, _, _, _ => none
  | fuel + 1, s, m, bad =>
    match s with
    | '"' :: rest =>
      match scanString (rest.length + 1) rest with
      | none => none
      | some (key, rest) =>
        match skipSpace rest with
        | ':' :: more =>
          match decodeValue (skipSpace more) with
          | none => none
          | some (v, bad1, rest) =>
            match skipSpace rest with
            | ',' :: more => decodeMembers fuel (skipSpace more) (m.set key v) (bad || bad1)
            | '}' :: more => some (m.set key v, bad || bad1, more)
            | _ => none
        | _ => none
    | _ => none

/-- Go `json.Unmarshal(data, &lineData)` for a fresh map `lineData`: a syntax
error, or a value that is neither an object nor `null`, is an error and leaves
the map empty; a number beyond `float64` is an error after the members have been
stored. -/
def jsonUnmarshal : Unmarshal := fun data =>
  match skipSpace data with
  | '{' :: rest =>
    match skipSpace rest with
    | '}' :: more =>
      if skipSpace more = [] then Unmarshalled.object GoMap.empty
      else Unmarshalled.failed GoMap.empty
    | body =>
      match decodeMembers (body.length + 1) body GoMap.empty false with
      | none => Unmarshalled.failed GoMap.empty
      | some (m, bad, more) =>
        if skipSpace more ≠ [] then Unmarshalled.failed GoMap.empty
        else if bad then Unmarshalled.failed m
        else Unmarshalled.object m
  | other =>
    if other.take 4 = ("null" : Str) ∧ skipSpace (other.drop 4) = [] then Unmarshalled.nilMap
    else Unmarshalled.failed GoMap.empty

/-! ## Specification-level definitions

Closed forms of what the helpers compute, used to state the theorems. -/

/-- The path and query assignments of `parseRawRequest` for the second token. -/
def splitPath (token : Str) (lineData : Record) : Record :=
  if '?' ∈ token then
    (lineData.set "path" (JsonValue.str (token.takeWhile (fun d => d != '?')))).set "query"
      (JsonValue.str ((SplitAfter token "?").getD 1 []))
  else lineData.set "path" (JsonValue.str token)

/-- What `parseRawRequest` makes of a record whose `request` is the string `req`. -/
def splitRequest (req : Str) (lineData : Record) : Record :=
  match Split req " " with
  | [a, b, _] => (splitPath b (lineData.set "method" (JsonValue.str a))).delete "request"
  | _ => lineData.delete "request"

/-- The header segment of an error-log line: the text before the first `", "`. -/
def headerOf (line : Str) : Str :=
  match Index line ", " with
  | some m => line.take m
  | none => line

/-- The clauses of an error-log line: the `", "`-separated segments after the
header. -/
def clausesOf (line : Str) : List Str := (Split line ", ").drop 1

/-- The map update one clause makes: a clause of exactly two `": "`-separated
parts stores the second part, without double quotes, under the first. -/
def clauseUpdate (params : GoMap Str) (clause : Str) : GoMap Str :=
  match Split clause ": " with
  | [key, value] => params.set key (Replace value "\"" "")
  | _ => params

/-- The clause map of an error-log line: every clause update, in order. -/
def paramsOf (line : Str) : GoMap Str := (clausesOf line).foldl clauseUpdate GoMap.empty

/-- The parser step from `value` to `rest` reads only characters that satisfy `P`. -/
def Consumes (P : Char → Prop) (value rest : Str) : Prop :=
  ∃ consumed : Str, value = consumed ++ rest ∧ ∀ c ∈ consumed, P c

/-- What `parseNginxAccessTimestamp` makes of a record whose `timestamp` is the
string `ts`. -/
def accessTimestamp (ts : Str) (lineData : Record) : Record :=
  match Parse nginxAccessLayout ts with
  | some t =>
    (lineData.set "timestamp" (JsonValue.str (Format t bigQueryTimeFormat))).set "tableName"
      (JsonValue.str (tableNameFromTime t))
  | none => lineData

/-- What `parseTableNameForRails` makes of a record whose `timestamp` is the
string `ts`. -/
def railsTableName (ts : Str) (lineData : Record) : Record :=
  match Parse bigQueryTimeFormat ts with
  | some t => lineData.set "tableName" (JsonValue.str (tableNameFromTime t))
  | none => lineData

/-- The record the access parser returns for the decoded object `m` whose
`request` is the string `req` and whose `timestamp` is the string `ts`. -/
def accessRecord (host : Str) (m : Record) (req ts : Str) : Record :=
  fun k =>
    ((accessTimestamp ts (splitRequest req
      ((m.set "host" (JsonValue.str host)).set "log_type" (JsonValue.str "nginx-access")))).get
        k).filter (fun v => !isBlank v)

/-- The record the rails parser returns for the decoded object `m` whose
`timestamp` is the string `ts`. -/
def railsRecord (host : Str) (m : Record) (ts : Str) : Record :=
  railsTableName ts ((m.set "host" (JsonValue.str host)).set "log_type" (JsonValue.str "rails"))

/-- A calendar date and clock time as `time.Parse` returns it and `time.Now`
gives it: a four-digit year, a month, a day of that month, and a time of day. -/
def Time.Valid (t : Time) : Prop :=
  t.year ≤ 9999 ∧ 1 ≤ t.month ∧ t.month ≤ 12 ∧ 1 ≤ t.day ∧ t.day ≤ daysIn t.month t.year ∧
    t.hour < 24 ∧ t.min < 60 ∧ t.sec < 60

instance (t : Time) : Decidable t.Valid := by
  unfold Time.Valid
  exact inferInstance

/-- The canonical form `YYYY-MM-DD HH:MM:SS`: nineteen characters, all digits
but for the separators. -/
def isCanonical (s : Str) : Bool :=
  match s with
  | [y1, y2, y3, y4, a, m1, m2, b, d1, d2, c, h1, h2, d, n1, n2, e, s1, s2] =>
    isDigit y1 && isDigit y2 && isDigit y3 && isDigit y4 && isDigit m1 && isDigit m2 &&
      isDigit d1 && isDigit d2 && isDigit h1 && isDigit h2 && isDigit n1 && isDigit n2 &&
      isDigit s1 && isDigit s2 &&
      decide (a = '-') && decide (b = '-') && decide (c = ' ') && decide (d = ':') &&
      decide (e = ':')
  | _ => false

/-- The fields `time.Parse` checks as it reads them: all but the day. -/
def Time.Bounded (t : Time) : Prop :=
  t.year ≤ 9999 ∧ 1 ≤ t.month ∧ t.month ≤ 12 ∧ t.hour < 24 ∧ t.min < 60 ∧ t.sec < 60

/-! ## Lemmas: string constants -/

@[simp]
theorem goString_inj (a b : String) : goString a = goString b ↔ a = b := by
  constructor
  · intro h
    exact String.ext h
  · intro h
    rw [h]

/-! ## Lemmas: maps -/

@[simp]
theorem get_set (m : GoMap β) (k j : Str) (v : β) :
    (m.set k v).get j = if j = k then some v else m.get j := rfl

@[simp]
theorem get_delete (m : GoMap β) (k j : Str) :
    (m.delete k).get j = if j = k then none else m.get j := rfl

@[simp]
theorem get_empty (j : Str) : (GoMap.empty : GoMap β).get j = none := rfl

/-! ## Lemmas: package `strings` -/

theorem Index_none_of_not_mem (c : Char) (s : Str) (h : c ∉ s) : Index s [c] = none := by
  induction s with
  | nil => simp [Index]
  | cons d s ih =>
    have h1 : ¬ c = d := fun e => h (by simp [e])
    have h2 : c ∉ s := fun e => h (by simp [e])
    simp [Index, h1, ih h2]

theorem Index_append_single (c : Char) (a b : Str) (h : c ∉ a) :
    Index (a ++ c :: b) [c] = some a.length := by
  induction a with
  | nil => simp [Index]
  | cons d a ih =>
    have h1 : ¬ c = d := fun e => h (by simp [e])
    have h2 : c ∉ a := fun e => h (by simp [e])
    simp [Index, h1, ih h2]

theorem exists_first (c : Char) (s : Str) (h : c ∈ s) :
    ∃ a b, s = a ++ c :: b ∧ c ∉ a := by
  induction s with
  | nil => simp at h
  | cons d s ih =>
    by_cases hd : c = d
    · exact ⟨[], s, by simp [hd], by simp⟩
    · have hs : c ∈ s := by
        rcases List.mem_cons.1 h with e | e
        · exact absurd e hd
        · exact e
      obtain ⟨a, b, hab, hna⟩ := ih hs
      refine ⟨d :: a, b, by simp [hab], ?_⟩
      simp [hd, hna]

theorem Index_cons_of_not_prefix (d : Char) (s sep : Str)
    (h : sep.isPrefixOf (d :: s) = false) :
    Index (d :: s) sep = (Index s sep).map (· + 1) := by
  simp only [Index, h, Bool.false_eq_true, if_false]

theorem Index_of_prefix (s sep : Str) (h : sep.isPrefixOf s = true) : Index s sep = some 0 := by
  cases s <;> simp only [Index, h, if_true]

theorem Index_append_second (x y : Char) (more a b : Str) (hxy : x ≠ y) (hy : y ∉ a) :
    Index (a ++ (x :: y :: more) ++ b) (x :: y :: more) = some a.length := by
  induction a with
  | nil => simp [Index, List.isPrefixOf_iff_prefix]
  | cons d a ih =>
    have h2 : y ∉ a := fun e => hy (by simp [e])
    have hnp : (x :: y :: more).isPrefixOf (d :: (a ++ (x :: y :: more) ++ b)) = false := by
      cases a with
      | nil => simp [List.isPrefixOf, Ne.symm hxy]
      | cons e a =>
        have : ¬ y = e := fun h => hy (by simp [h])
        simp [List.isPrefixOf, this]
    have h3 := ih h2
    have h4 := Index_cons_of_not_prefix d (a ++ (x :: y :: more) ++ b) (x :: y :: more) hnp
    rw [List.cons_append, List.cons_append, h4, h3]
    rfl

theorem Index_length_le (sep : Str) : ∀ (s : Str) (m : Nat), Index s sep = some m →
    m + sep.length ≤ s.length := by
  intro s
  induction s with
  | nil =>
    intro m h
    cases sep with
    | nil => simp [Index] at h; simp [← h]
    | cons c sep => simp [Index] at h
  | cons d s ih =>
    intro m h
    simp only [Index] at h
    split at h
    · rename_i hp
      have := (List.isPrefixOf_iff_prefix.1 hp).length_le
      simp at h
      simp [← h]
      simpa using this
    · cases hi : Index s sep with
      | none => simp [hi] at h
      | some m1 =>
        simp [hi] at h
        have := ih m1 hi
        simp [← h]
        omega

theorem genSplit_ne_nil (sep : Str) (k n : Nat) (s : Str) : genSplit sep k n s ≠ [] := by
  cases n with
  | zero => simp [genSplit]
  | succ n =>
    simp only [genSplit]
    split <;> simp

theorem genSplit_of_none (sep : Str) (k n : Nat) (s : Str) (h : Index s sep = none) :
    genSplit sep k n s = [s] := by
  cases n <;> simp [genSplit, h]

theorem genSplit_of_some (sep : Str) (k n m : Nat) (s : Str) (h : Index s sep = some m) :
    genSplit sep k (n + 1) s = s.take (m + k) :: genSplit sep k n (s.drop (m + sep.length)) := by
  simp [genSplit, h]

theorem replaceLoop_single (c : Char) : ∀ (n : Nat) (s : Str), s.length ≤ n →
    replaceLoop [c] [] n s = s.filter (fun d => d != c) := by
  intro n
  induction n with
  | zero =>
    intro s h
    have : s = [] := List.length_eq_zero.1 (Nat.le_zero.1 h)
    simp [this, replaceLoop]
  | succ n ih =>
    intro s h
    by_cases hc : c ∈ s
    · obtain ⟨a, b, hab, hna⟩ := exists_first c s hc
      subst hab
      have hlen : b.length ≤ n := by simp at h; omega
      have hfa : a.filter (fun d => d != c) = a := by
        apply List.filter_eq_self.2
        intro d hd
        have : d ≠ c := fun e => hna (e ▸ hd)
        simp [this]
      simp [replaceLoop, Index_append_single c a b hna, ih b hlen, List.filter_append, hfa]
    · have hfs : s.filter (fun d => d != c) = s := by
        apply List.filter_eq_self.2
        intro d hd
        have : d ≠ c := fun e => hc (e ▸ hd)
        simp [this]
      simp [replaceLoop, Index_none_of_not_mem c s hc, hfs]

theorem Replace_single (c : Char) (s : Str) :
    Replace s [c] [] = s.filter (fun d => d != c) :=
  replaceLoop_single c s.length s (Nat.le_refl _)

/-! ## Lemmas: the request-line splitter -/

theorem takeWhile_append_first (c : Char) (a b : Str) (h : c ∉ a) :
    (a ++ c :: b).takeWhile (fun d => d != c) = a := by
  induction a with
  | nil => simp [List.takeWhile_cons]
  | cons d a ih =>
    have h1 : ¬ d = c := fun e => h (by simp [e])
    have h2 : c ∉ a := fun e => h (by simp [e])
    simp [List.takeWhile_cons, h1, ih h2]

theorem filter_ne_self (c : Char) (a : Str) (h : c ∉ a) : a.filter (fun d => d != c) = a := by
  apply List.filter_eq_self.2
  intro d hd
  have : d ≠ c := fun e => h (e ▸ hd)
  simp [this]

theorem Contains_single (c : Char) (s : Str) : Contains s [c] = decide (c ∈ s) := by
  by_cases h : c ∈ s
  · obtain ⟨a, b, hab, hna⟩ := exists_first c s h
    simp [Contains, hab, Index_append_single c a b hna]
  · simp [Contains, Index_none_of_not_mem c s h, h]

theorem SplitAfter_single (c : Char) (a b : Str) (h : c ∉ a) :
    ∃ q l, SplitAfter (a ++ c :: b) [c] = (a ++ [c]) :: q :: l := by
  have hi := Index_append_single c a b h
  have hlen : (a ++ c :: b).length = (a.length + b.length) + 1 := by simp; omega
  have hs : SplitAfter (a ++ c :: b) [c]
      = (a ++ c :: b).take (a.length + 1) ::
        genSplit [c] 1 (a.length + b.length) ((a ++ c :: b).drop (a.length + 1)) := by
    unfold SplitAfter
    rw [hlen]
    exact genSplit_of_some [c] 1 _ _ _ hi
  have ht : (a ++ c :: b).take (a.length + 1) = a ++ [c] := by
    simp [List.take_append_eq_append_take]
  rw [ht] at hs
  cases hg : genSplit [c] 1 (a.length + b.length) ((a ++ c :: b).drop (a.length + 1)) with
  | nil => exact absurd hg (genSplit_ne_nil _ _ _ _)
  | cons q l => exact ⟨q, l, by rw [hs, hg]⟩

theorem parseRawRequest_of_three (lineData : Record) (req a b c : Str)
    (h : lineData.get "request" = some (JsonValue.str req)) (h3 : Split req " " = [a, b, c]) :
    parseRawRequest lineData
      = some ((splitPath b (lineData.set "method" (JsonValue.str a))).delete "request") := by
  by_cases hq : '?' ∈ b
  · obtain ⟨p, r, hpr, hnp⟩ := exists_first '?' b hq
    obtain ⟨q, l, hsa⟩ := SplitAfter_single '?' p r hnp
    have hc : Contains b (goString "?") = true :=
      (by simp [Contains_single, hq] : Contains b ['?'] = true)
    have hrep : Replace (p ++ ['?']) (goString "?") (goString "") = p := by
      show Replace (p ++ ['?']) ['?'] [] = p
      rw [Replace_single]
      simp [List.filter_append, filter_ne_self '?' p hnp]
    have hsa : SplitAfter (p ++ '?' :: r) (goString "?") = (p ++ ['?']) :: q :: l := hsa
    have htw : b.takeWhile (fun d => d != '?') = p := by
      rw [hpr]; exact takeWhile_append_first '?' p r hnp
    unfold parseRawRequest assertString
    rw [h]
    simp [h3, splitPath, hq, htw, hc, hpr ▸ hsa, hrep]
  · have hc : Contains b (goString "?") = false :=
      (by simp [Contains_single, hq] : Contains b ['?'] = false)
    unfold parseRawRequest assertString
    rw [h]
    simp [h3, splitPath, hq, hc]

theorem parseRawRequest_of_not_three (lineData : Record) (req : Str)
    (h : lineData.get "request" = some (JsonValue.str req)) (h3 : (Split req " ").length ≠ 3) :
    parseRawRequest lineData = some (lineData.delete "request") := by
  unfold parseRawRequest assertString
  rw [h]
  simp [h3]

theorem length_three {α : Type} (l : List α) (h : l.length = 3) : ∃ a b c, l = [a, b, c] := by
  match l, h with
  | [a, b, c], _ => exact ⟨a, b, c, rfl⟩

theorem parseRawRequest_eq (lineData : Record) (req : Str)
    (h : lineData.get "request" = some (JsonValue.str req)) :
    parseRawRequest lineData = some (splitRequest req lineData) := by
  by_cases h3 : (Split req " ").length = 3
  · obtain ⟨a, b, c, habc⟩ := length_three _ h3
    rw [parseRawRequest_of_three lineData req a b c h habc]
    simp [splitRequest, habc]
  · rw [parseRawRequest_of_not_three lineData req h h3]
    unfold splitRequest
    split
    · rename_i a b c habc
      exact absurd (by simp [habc]) h3
    · rfl

theorem parseRawRequest_set (lineData : Record) (req : Str) :
    parseRawRequest (lineData.set "request" (JsonValue.str req))
      = some (splitRequest req (lineData.set "request" (JsonValue.str req))) :=
  parseRawRequest_eq _ req (by simp)

@[simp]
theorem splitRequest_get_request (req : Str) (lineData : Record) :
    (splitRequest req lineData).get "request" = none := by
  unfold splitRequest
  split <;> simp

theorem splitRequest_get_of_ne (req : Str) (lineData : Record) (k : Str)
    (h1 : k ≠ "method") (h2 : k ≠ "path") (h3 : k ≠ "query") (h4 : k ≠ "request") :
    (splitRequest req lineData).get k = lineData.get k := by
  unfold splitRequest
  split
  · unfold splitPath
    split <;> simp [h1, h2, h3, h4]
  · simp [h4]

/-! ## Lemmas: the error parser -/

theorem Split_eq_header_cons (line : Str) :
    Split line ", " = headerOf line :: clausesOf line := by
  have key : ∃ rest, Split line ", " = headerOf line :: rest := by
    unfold Split headerOf
    cases hi : Index line ", " with
    | none => exact ⟨[], genSplit_of_none _ _ _ _ hi⟩
    | some m =>
      have hlen := Index_length_le _ _ _ hi
      cases hl : line.length with
      | zero =>
        rw [hl] at hlen
        have : (goString ", ").length = 2 := rfl
        omega
      | succ n => exact ⟨_, by rw [genSplit_of_some _ _ _ _ _ hi]; rfl⟩
  obtain ⟨rest, hr⟩ := key
  simp [clausesOf, hr]

theorem addParam_eq (params : GoMap Str) (clause : Str) :
    addParam params clause = some (clauseUpdate params clause) := by
  unfold addParam clauseUpdate
  generalize Split clause ": " = l
  match l with
  | [] => rfl
  | [_] => rfl
  | [_, _] => rfl
  | _ :: _ :: _ :: _ => rfl

theorem paramsLoop_eq : ∀ (l : List Str) (pre : List Str) (params : GoMap Str),
    paramsLoop (pre ++ l) l.length pre.length params = some (l.foldl clauseUpdate params) := by
  intro l
  induction l with
  | nil => intro pre params; simp [paramsLoop]
  | cons c l ih =>
    intro pre params
    have h1 : (pre ++ c :: l)[pre.length]? = some c := by
      rw [List.getElem?_append_right (Nat.le_refl _)]
      simp
    have h2 := ih (pre ++ [c]) (clauseUpdate params c)
    simp only [List.append_assoc, List.singleton_append, List.length_append, List.length_singleton]
      at h2
    simp [paramsLoop, h1, addParam_eq, h2]

theorem parseNginxErrorTimestamp_frame (raw : Str) (lineData : Record) (k : Str)
    (h1 : k ≠ "timestamp") (h2 : k ≠ "tableName") :
    (parseNginxErrorTimestamp raw lineData).get k = lineData.get k := by
  unfold parseNginxErrorTimestamp
  split <;> simp [h1, h2]

theorem length_two {α : Type} (l : List α) (h : l.length = 2) : ∃ a b, l = [a, b] := by
  match l, h with
  | [a, b], _ => exact ⟨a, b, rfl⟩

theorem parseNginxErrorHeader_fallback (now : Time) (header : Str) (lineData : Record)
    (h : Contains header " [error] " = false) :
    parseNginxErrorHeader now header lineData
      = some (((lineData.set "message" (JsonValue.str (Replace header "\"" ""))).set "timestamp"
          (JsonValue.str (Format now bigQueryTimeFormat))).set "tableName"
          (JsonValue.str (tableNameFromTime now))) := by
  unfold parseNginxErrorHeader
  simp [h]

theorem Split_of_not_Contains (s sep : Str) (h : Contains s sep = false) : Split s sep = [s] := by
  apply genSplit_of_none
  unfold Contains at h
  cases hi : Index s sep with
  | none => rfl
  | some m => simp [hi] at h

theorem parseNginxErrorHeader_marked (now : Time) (header date tail a b rest : Str)
    (lineData : Record) (h : Split header " [error] " = [date, tail])
    (h3 : SplitN tail " " 3 = [a, b, rest]) :
    parseNginxErrorHeader now header lineData
      = some ((parseNginxErrorTimestamp date lineData).set "message"
          (JsonValue.str (Replace rest "\"" ""))) := by
  have hc : Contains header " [error] " = true := by
    cases hc : Contains header " [error] " with
    | true => rfl
    | false =>
      rw [Split_of_not_Contains _ _ hc] at h
      simp at h
  unfold parseNginxErrorHeader
  simp [hc, h, h3]

theorem parseNginxErrorHeader_frame (now : Time) (header : Str) (lineData : Record) :
    ∃ r, parseNginxErrorHeader now header lineData = some r ∧
      ∀ k : Str, k ≠ "message" → k ≠ "timestamp" → k ≠ "tableName" →
        r.get k = lineData.get k := by
  cases hc : Contains header " [error] " with
  | false =>
    refine ⟨_, parseNginxErrorHeader_fallback now header lineData hc, ?_⟩
    intro k h1 h2 h3
    simp [h1, h2, h3]
  | true =>
    by_cases h2 : (Split header " [error] ").length = 2
    · obtain ⟨date, tail, hdt⟩ := length_two _ h2
      by_cases h3 : (SplitN tail " " 3).length = 3
      · obtain ⟨a, b, rest, habc⟩ := length_three _ h3
        refine ⟨_, parseNginxErrorHeader_marked now header date tail a b rest lineData hdt habc, ?_⟩
        intro k h1 h2 h3
        simp [h1, parseNginxErrorTimestamp_frame _ _ k h2 h3]
      · refine ⟨parseNginxErrorTimestamp date lineData, ?_, ?_⟩
        · unfold parseNginxErrorHeader
          simp [hc, hdt, h3]
        · intro k _ h2 h3
          exact parseNginxErrorTimestamp_frame _ _ k h2 h3
    · refine ⟨lineData, ?_, ?_⟩
      · unfold parseNginxErrorHeader
        simp [hc, h2]
      · intro k _ _ _
        rfl

theorem parseNginxErrorFields_spec (now : Time) (line : Str) :
    ∃ hdr r, parseNginxErrorHeader now (headerOf line) GoMap.empty = some hdr ∧
      parseNginxErrorFields now line = some r ∧
      r.get "request" = none ∧
      r.get "ip" = ((paramsOf line).get "client").map JsonValue.str ∧
      r.get "domain" = ((paramsOf line).get "host").map JsonValue.str ∧
      r.get "referrer" = ((paramsOf line).get "referrer").map JsonValue.str ∧
      r.get "message" = hdr.get "message" ∧
      r.get "timestamp" = hdr.get "timestamp" ∧
      r.get "tableName" = hdr.get "tableName" := by
  obtain ⟨hdr, hhdr, hframe⟩ := parseNginxErrorHeader_frame now (headerOf line) GoMap.empty
  have hloop : paramsLoop (headerOf line :: clausesOf line) (clausesOf line).length 1 GoMap.empty
      = some (paramsOf line) := paramsLoop_eq (clausesOf line) [headerOf line] GoMap.empty
  have hip := hframe "ip" (by simp) (by simp) (by simp)
  have hdom := hframe "domain" (by simp) (by simp) (by simp)
  have href := hframe "referrer" (by simp) (by simp) (by simp)
  have hreq := hframe "request" (by simp) (by simp) (by simp)
  simp only [get_empty] at hip hdom href hreq
  refine ⟨hdr, ?_⟩
  unfold parseNginxErrorFields
  rw [Split_eq_header_cons]
  simp only [List.getElem?_cons_zero, List.drop_succ_cons, List.drop_zero, Option.bind_eq_bind,
    Option.some_bind, hhdr, hloop, Option.pure_def]
  cases hc : (paramsOf line).get "client" <;> cases hd : (paramsOf line).get "host" <;>
    cases hq : (paramsOf line).get "request" <;> cases hr : (paramsOf line).get "referrer" <;>
    simp [hip, hdom, href, hreq, parseRawRequest_set, splitRequest_get_of_ne]

theorem parseNginxErrorLine_eq (now : Time) (host line : Str) (r : Record)
    (h : parseNginxErrorFields now line = some r) :
    parseNginxErrorLine now host line
      = Outcome.ok ((r.set "host" (JsonValue.str host)).set "log_type"
          (JsonValue.str "nginx-error")) := by
  simp [parseNginxErrorLine, h]

/-! ## Lemmas: package `time` -/

theorem Consumes.refl (P : Char → Prop) (value : Str) : Consumes P value value :=
  ⟨[], rfl, by simp⟩

theorem Consumes.trans {P : Char → Prop} {a b c : Str} (h1 : Consumes P a b)
    (h2 : Consumes P b c) : Consumes P a c := by
  obtain ⟨x, hx, hpx⟩ := h1
  obtain ⟨y, hy, hpy⟩ := h2
  refine ⟨x ++ y, by rw [hx, hy, List.append_assoc], ?_⟩
  intro d hd
  rcases List.mem_append.1 hd with h | h
  · exact hpx d h
  · exact hpy d h

theorem Consumes.cons {P : Char → Prop} {a b : Str} (c : Char) (hc : P c)
    (h : Consumes P a b) : Consumes P (c :: a) b := by
  obtain ⟨x, hx, hpx⟩ := h
  refine ⟨c :: x, by rw [hx]; rfl, ?_⟩
  intro d hd
  rcases List.mem_cons.1 hd with h | h
  · exact h ▸ hc
  · exact hpx d h

theorem cutspace_consumes (P : Char → Prop) (hsp : P ' ') (value : Str) :
    Consumes P value (cutspace value) := by
  induction value with
  | nil => exact Consumes.refl P _
  | cons c s ih =>
    unfold cutspace
    split
    · rename_i hc
      exact Consumes.cons c (hc ▸ hsp) ih
    · exact Consumes.refl P _

theorem skipLoop_consumes (P : Char → Prop) (hsp : P ' ') :
    ∀ (fuel : Nat) (value pre rest : Str), (∀ c ∈ pre, P c) →
      skipLoop fuel value pre = some rest → Consumes P value rest := by
  intro fuel
  induction fuel with
  | zero =>
    intro value pre rest hpre h
    cases pre with
    | nil =>
      simp [skipLoop] at h
      exact h ▸ Consumes.refl P _
    | cons p pre => simp [skipLoop] at h
  | succ fuel ih =>
    intro value pre rest hpre h
    cases pre with
    | nil =>
      simp [skipLoop] at h
      exact h ▸ Consumes.refl P _
    | cons p pre =>
      have hcut : ∀ c ∈ cutspace pre, P c := by
        intro c hc
        obtain ⟨x, hx, _⟩ := cutspace_consumes (fun _ => True) trivial pre
        exact hpre c (by rw [hx]; simp [hc])
      have hpre2 : ∀ c ∈ pre, P c := fun c hc => hpre c (by simp [hc])
      simp only [skipLoop] at h
      split at h
      · cases value with
        | nil => exact ih _ _ _ hcut h
        | cons v value =>
          simp only at h
          split at h
          · simp at h
          · exact (cutspace_consumes P hsp _).trans (ih _ _ _ hcut h)
      · cases value with
        | nil => simp at h
        | cons v value =>
          simp only at h
          split at h
          · simp at h
          · rename_i hv
            have hvp : v = p := by simpa using hv
            exact Consumes.cons v (hvp ▸ hpre p (by simp)) (ih _ _ _ hpre2 h)

theorem skip_consumes (P : Char → Prop) (hsp : P ' ') (value pre rest : Str)
    (hpre : ∀ c ∈ pre, P c) (h : skip value pre = some rest) : Consumes P value rest :=
  skipLoop_consumes P hsp _ _ _ _ hpre h

theorem getnum_consumes (P : Char → Prop) (hd : ∀ c, isDigit c = true → P c) (s : Str)
    (fixed : Bool) (n : Nat) (rest : Str) (h : getnum s fixed = some (n, rest)) :
    Consumes P s rest := by
  unfold getnum at h
  split at h
  · simp at h
  · rename_i c
    split at h
    · rename_i hc
      simp at h
      simp at hc
      exact ⟨[c], by simp [h.2], by simpa using hd c hc.1⟩
    · simp at h
  · rename_i c d more
    split at h
    · simp at h
    · rename_i hc
      simp at hc
      split at h
      · split at h
        · simp at h
        · simp at h
          exact ⟨[c], by simp [h.2], by simpa using hd c hc⟩
      · rename_i hdd
        simp at hdd h
        exact ⟨[c, d], by simp [h.2], by
          intro x hx
          simp at hx
          rcases hx with e | e
          · exact e ▸ hd c hc
          · exact e ▸ hd d hdd⟩

theorem takeWhile_consumes (P : Char → Prop) (hd : ∀ c, isDigit c = true → P c) (s : Str) :
    Consumes P s (s.dropWhile isDigit) :=
  ⟨s.takeWhile isDigit, (List.takeWhile_append_dropWhile isDigit s).symm,
    fun c hc => hd c (List.mem_takeWhile_imp hc)⟩

theorem parseStd_consumes (P : Char → Prop) (hd : ∀ c, isDigit c = true → P c)
    (hdot : P '.') (hcomma : P ',') (std : Std) (hstd : std ≠ Std.month) (value : Str)
    (t t1 : Time) (rest : Str) (h : parseStd std value t = some (t1, rest)) :
    Consumes P value rest := by
  cases std with
  | month => exact absurd rfl hstd
  | longYear =>
    simp only [parseStd] at h
    split at h
    · rename_i a b c d more
      split at h
      · rename_i hdig
        simp at hdig h
        refine ⟨[a, b, c, d], by simp [h.2], ?_⟩
        intro x hx
        simp at hx
        rcases hx with e | e | e | e
        · exact e ▸ hd a hdig.1.1.1
        · exact e ▸ hd b hdig.1.1.2
        · exact e ▸ hd c hdig.1.2
        · exact e ▸ hd d hdig.2
      · simp at h
    · simp at h
  | zeroMonth =>
    simp only [parseStd] at h
    split at h
    · rename_i n more hg
      split at h
      · simp at h
      · simp at h
        exact h.2 ▸ getnum_consumes P hd _ _ _ _ hg
    · simp at h
  | zeroDay =>
    simp only [parseStd] at h
    split at h
    · rename_i n more hg
      simp at h
      exact h.2 ▸ getnum_consumes P hd _ _ _ _ hg
    · simp at h
  | hour =>
    simp only [parseStd] at h
    split at h
    · rename_i n more hg
      split at h
      · simp at h
      · simp at h
        exact h.2 ▸ getnum_consumes P hd _ _ _ _ hg
    · simp at h
  | zeroMinute =>
    simp only [parseStd] at h
    split at h
    · rename_i n more hg
      split at h
      · simp at h
      · simp at h
        exact h.2 ▸ getnum_consumes P hd _ _ _ _ hg
    · simp at h
  | zeroSecond =>
    simp only [parseStd] at h
    split at h
    · rename_i n more hg
      have hnum := getnum_consumes P hd _ _ _ _ hg
      split at h
      · simp at h
      · split at h
        · rename_i p d tail
          split at h
          · rename_i hfrac
            simp at hfrac h
            have hp : P p := by
              rcases hfrac.1 with e | e
              · exact e ▸ hdot
              · exact e ▸ hcomma
            exact hnum.trans (Consumes.cons p hp (h.2 ▸ takeWhile_consumes P hd (d :: tail)))
          · simp at h
            exact h.2 ▸ hnum
        · simp at h
          exact h.2 ▸ hnum
    · simp at h

theorem parseChunks_consumes (P : Char → Prop) (hsp : P ' ')
    (hd : ∀ c, isDigit c = true → P c) (hdot : P '.') (hcomma : P ',') :
    ∀ (chunks : List (Str × Std)) (value : Str) (t t1 : Time) (rest : Str),
      (∀ chunk ∈ chunks, chunk.2 ≠ Std.month ∧ ∀ c ∈ chunk.1, P c) →
      parseChunks chunks value t = some (t1, rest) → Consumes P value rest := by
  intro chunks
  induction chunks with
  | nil =>
    intro value t t1 rest _ h
    simp [parseChunks] at h
    exact h.2 ▸ Consumes.refl P _
  | cons chunk chunks ih =>
    intro value t t1 rest hch h
    obtain ⟨pre, std⟩ := chunk
    have h0 := hch (pre, std) (by simp)
    simp only [parseChunks] at h
    split at h
    · simp at h
    · rename_i v1 hs
      split at h
      · simp at h
      · rename_i t2 v2 hp
        exact (skip_consumes P hsp _ _ _ h0.2 hs).trans
          ((parseStd_consumes P hd hdot hcomma std h0.1 _ _ _ _ hp).trans
            (ih _ _ _ _ (fun c hc => hch c (by simp [hc])) h))

/-- A string that `time.Parse` accepts for a layout without a month name holds
only digits, blanks, `.`, `,` and the literal characters of the layout. -/
theorem Parse_chars (P : Char → Prop) (hsp : P ' ') (hd : ∀ c, isDigit c = true → P c)
    (hdot : P '.') (hcomma : P ',') (layout : Layout) (value : Str) (t : Time)
    (hch : ∀ chunk ∈ layout.chunks, chunk.2 ≠ Std.month ∧ ∀ c ∈ chunk.1, P c)
    (hsuf : ∀ c ∈ layout.suffix, P c) (h : Parse layout value = some t) :
    ∀ c ∈ value, P c := by
  unfold Parse at h
  split at h
  · simp at h
  · rename_i t1 v1 hp
    split at h
    · simp at h
    · rename_i rest hs
      split at h
      · simp at h
      · rename_i hrest
        have hrest : rest = [] := by simpa using hrest
        obtain ⟨x, hx, hpx⟩ := (parseChunks_consumes P hsp hd hdot hcomma _ _ _ _ _ hch hp).trans
          (skip_consumes P hsp _ _ _ hsuf hs)
        rw [hrest, List.append_nil] at hx
        exact hx ▸ hpx

theorem nginxError_date_chars (date : Str) (t : Time)
    (h : Parse nginxErrorLayout date = some t) : '[' ∉ date := by
  intro hmem
  refine Parse_chars (fun c => c ≠ '[') (by decide) ?_ (by decide) (by decide) nginxErrorLayout
    date t ?_ ?_ h '[' hmem rfl
  · intro c hc e
    rw [e] at hc
    exact absurd hc (by decide)
  · decide
  · decide

/-! ## Lemmas: splitting a concatenation -/

theorem Index_none_of_Contains (s sep : Str) (h : Contains s sep = false) :
    Index s sep = none := by
  unfold Contains at h
  cases hi : Index s sep with
  | none => rfl
  | some m => simp [hi] at h

theorem Index_append_none_of_first (x : Char) (more a v : Str) (hx : x ∉ a)
    (hv : Index v (x :: more) = none) : Index (a ++ v) (x :: more) = none := by
  induction a with
  | nil => simpa using hv
  | cons d a ih =>
    have h1 : ¬ x = d := fun e => hx (by simp [e])
    have h2 : x ∉ a := fun e => hx (by simp [e])
    have hnp : (x :: more).isPrefixOf (d :: (a ++ v)) = false := by
      simp [List.isPrefixOf, h1]
    rw [List.cons_append, Index_cons_of_not_prefix d _ _ hnp, ih h2]
    rfl

/-- A string with exactly one occurrence of the separator splits in two. -/
theorem Split_pair (x y : Char) (more a b : Str) (hxy : x ≠ y) (hy : y ∉ a)
    (hb : Index b (x :: y :: more) = none) :
    Split (a ++ (x :: y :: more) ++ b) (x :: y :: more) = [a, b] := by
  have hi := Index_append_second x y more a b hxy hy
  have hlen : (a ++ (x :: y :: more) ++ b).length = (a.length + more.length + b.length + 1) + 1 := by
    simp; omega
  unfold Split
  rw [hlen, genSplit_of_some _ _ _ _ _ hi]
  have h1 : List.take (a.length + 0) (a ++ (x :: y :: more) ++ b) = a := by
    simp [List.append_assoc]
  have h2 : List.drop (a.length + (x :: y :: more).length) (a ++ (x :: y :: more) ++ b) = b := by
    rw [List.append_assoc, ← List.drop_drop, List.drop_left, List.drop_left]
  rw [h1, h2, genSplit_of_none _ _ _ _ hb]

/-- Three blank-separated tokens: `SplitN(_, " ", 3)` gives them back when the
first two hold no blank. -/
theorem SplitN_three (a b rest : Str) (ha : ' ' ∉ a) (hb : ' ' ∉ b) :
    SplitN (a ++ ' ' :: (b ++ ' ' :: rest)) [' '] 3 = [a, b, rest] := by
  have h1 := Index_append_single ' ' a (b ++ ' ' :: rest) ha
  have h2 := Index_append_single ' ' b rest hb
  unfold SplitN
  rw [show 3 - 1 = 1 + 1 from rfl, genSplit_of_some _ _ _ _ _ h1]
  have e1 : List.take (a.length + 0) (a ++ ' ' :: (b ++ ' ' :: rest)) = a := by simp
  have e2 : List.drop (a.length + [' '].length) (a ++ ' ' :: (b ++ ' ' :: rest))
      = b ++ ' ' :: rest := by
    rw [← List.drop_drop, List.drop_left]
    rfl
  rw [e1, e2, genSplit_of_some _ _ _ _ _ h2]
  have e3 : List.take (b.length + 0) (b ++ ' ' :: rest) = b := by simp
  have e4 : List.drop (b.length + [' '].length) (b ++ ' ' :: rest) = rest := by
    rw [← List.drop_drop, List.drop_left]
    rfl
  rw [e3, e4]
  rfl

theorem Index_append_pair (x y : Char) (hxy : x ≠ y) (t : Str) : ∀ h : Str,
    ∃ m, Index (h ++ x :: y :: t) [x, y] = some m ∧ (m = h.length ∨ m + 2 ≤ h.length) := by
  intro h
  induction h with
  | nil => exact ⟨0, by simp [Index], Or.inl rfl⟩
  | cons d h ih =>
    by_cases hp : [x, y].isPrefixOf (d :: (h ++ x :: y :: t)) = true
    · refine ⟨0, Index_of_prefix _ _ hp, Or.inr ?_⟩
      cases h with
      | nil =>
        simp [List.isPrefixOf] at hp
        exact absurd hp.2.symm hxy
      | cons e h => simp
    · have hp : [x, y].isPrefixOf (d :: (h ++ x :: y :: t)) = false := by
        cases hb : [x, y].isPrefixOf (d :: (h ++ x :: y :: t)) with
        | true => exact absurd hb hp
        | false => rfl
      obtain ⟨m, hm, hcase⟩ := ih
      refine ⟨m + 1, ?_, ?_⟩
      · rw [List.cons_append, Index_cons_of_not_prefix d _ _ hp, hm]
        rfl
      · simp only [List.length_cons]
        omega

/-- The text after the last separator is the last piece of `Split`, and it is
not the first piece. -/
theorem Split_append_last (x y : Char) (hxy : x ≠ y) (t : Str)
    (ht : Index t [x, y] = none) : ∀ (n : Nat) (h : Str), h.length < n →
    ∃ first mid, genSplit [x, y] 0 n (h ++ x :: y :: t) = first :: (mid ++ [t]) := by
  intro n
  induction n with
  | zero => intro h hn; omega
  | succ n ih =>
    intro h hn
    obtain ⟨m, hm, hcase⟩ := Index_append_pair x y hxy t h
    rw [genSplit_of_some _ _ _ _ _ hm]
    rcases hcase with e | e
    · have hdrop : List.drop (m + [x, y].length) (h ++ x :: y :: t) = t := by
        rw [e, ← List.drop_drop, List.drop_left]
        rfl
      rw [hdrop, genSplit_of_none _ _ _ _ ht]
      exact ⟨_, [], rfl⟩
    · have hdrop : List.drop (m + [x, y].length) (h ++ x :: y :: t)
          = h.drop (m + 2) ++ x :: y :: t := by
        rw [List.drop_append_of_le_length (by simpa using e)]
        rfl
      have hlt : (h.drop (m + 2)).length < n := by
        simp only [List.length_drop]
        omega
      obtain ⟨first, mid, hfm⟩ := ih (h.drop (m + 2)) hlt
      rw [hdrop, hfm]
      exact ⟨_, first :: mid, rfl⟩

/-! ## Lemmas: clauses of an error-log line -/

theorem foldl_clauseUpdate_none (key : Str) : ∀ (l : List Str) (p : GoMap Str),
    (∀ clause ∈ l, ∀ value, Split clause ": " ≠ [key, value]) → p.get key = none →
    (l.foldl clauseUpdate p).get key = none := by
  intro l
  induction l with
  | nil => intro p _ hp; simpa using hp
  | cons c l ih =>
    intro p hl hp
    rw [List.foldl_cons]
    apply ih _ (fun clause hc => hl clause (by simp [hc]))
    unfold clauseUpdate
    split
    · rename_i k v hkv
      have hne : key ≠ k := by
        intro e
        exact hl c (by simp) v (e ▸ hkv)
      simp [hne, hp]
    · exact hp

theorem paramsOf_get_none (line key : Str)
    (h : ∀ clause ∈ clausesOf line, ∀ value, Split clause ": " ≠ [key, value]) :
    (paramsOf line).get key = none :=
  foldl_clauseUpdate_none key _ _ h rfl

theorem paramsOf_last (h key v : Str) (hk1 : ' ' ∉ key) (hk2 : ',' ∉ key)
    (hv1 : Contains v ", " = false) (hv2 : Contains v ": " = false) :
    (paramsOf (h ++ ',' :: ' ' :: (key ++ ':' :: ' ' :: v))).get key
      = some (v.filter (fun c => c != '"')) := by
  have hi1 : Index v [',', ' '] = none := Index_none_of_Contains v _ hv1
  have hi2 : Index v [':', ' '] = none := Index_none_of_Contains v _ hv2
  have ht : Index (key ++ ':' :: ' ' :: v) [',', ' '] = none := by
    have := Index_append_none_of_first ',' [' '] (key ++ [':', ' ']) v (by simp [hk2]) hi1
    simpa using this
  obtain ⟨first, mid, hfm⟩ := Split_append_last ',' ' ' (by decide) (key ++ ':' :: ' ' :: v) ht
    (h ++ ',' :: ' ' :: (key ++ ':' :: ' ' :: v)).length h (by simp)
  have hsplit : Split (h ++ ',' :: ' ' :: (key ++ ':' :: ' ' :: v)) ", "
      = first :: (mid ++ [key ++ ':' :: ' ' :: v]) := hfm
  have hpair : Split (key ++ ':' :: ' ' :: v) ": " = [key, v] := by
    have := Split_pair ':' ' ' [] key v (by decide) hk1 hi2
    simpa using this
  have hrep : Replace v "\"" "" = v.filter (fun c => c != '"') := Replace_single '"' v
  unfold paramsOf clausesOf
  rw [hsplit]
  simp [List.foldl_append, clauseUpdate, hpair, hrep]

/-! ## Lemmas: the JSON parsers -/

theorem assertString_eq_some (lineData : Record) (k s : Str) :
    assertString lineData k = some s ↔ lineData.get k = some (JsonValue.str s) := by
  unfold assertString
  split
  · rename_i s1 hs
    simp [hs]
  · rename_i hn
    constructor
    · intro h; simp at h
    · intro h; exact absurd h (hn s)

theorem assertString_eq_none (lineData : Record) (k : Str) :
    assertString lineData k = none ↔ ∀ s, lineData.get k ≠ some (JsonValue.str s) := by
  constructor
  · intro h s hs
    rw [(assertString_eq_some lineData k s).2 hs] at h
    simp at h
  · intro h
    cases ha : assertString lineData k with
    | none => rfl
    | some s => exact absurd ((assertString_eq_some lineData k s).1 ha) (h s)

theorem parseRawRequest_eq_none (lineData : Record)
    (h : ∀ s, lineData.get "request" ≠ some (JsonValue.str s)) :
    parseRawRequest lineData = none := by
  unfold parseRawRequest
  rw [(assertString_eq_none lineData "request").2 h]
  rfl

theorem parseNginxAccessTimestamp_eq (lineData : Record) (ts : Str)
    (h : lineData.get "timestamp" = some (JsonValue.str ts)) :
    parseNginxAccessTimestamp lineData = some (accessTimestamp ts lineData) := by
  unfold parseNginxAccessTimestamp accessTimestamp
  rw [(assertString_eq_some lineData "timestamp" ts).2 h]
  simp only [Option.bind_eq_bind, Option.some_bind]
  split <;> rfl

theorem parseNginxAccessTimestamp_eq_none (lineData : Record)
    (h : ∀ s, lineData.get "timestamp" ≠ some (JsonValue.str s)) :
    parseNginxAccessTimestamp lineData = none := by
  unfold parseNginxAccessTimestamp
  rw [(assertString_eq_none lineData "timestamp").2 h]
  rfl

theorem parseTableNameForRails_eq (lineData : Record) (ts : Str)
    (h : lineData.get "timestamp" = some (JsonValue.str ts)) :
    parseTableNameForRails lineData = some (railsTableName ts lineData) := by
  unfold parseTableNameForRails railsTableName
  rw [(assertString_eq_some lineData "timestamp" ts).2 h]
  simp only [Option.bind_eq_bind, Option.some_bind]
  split <;> rfl

theorem parseTableNameForRails_eq_none (lineData : Record)
    (h : ∀ s, lineData.get "timestamp" ≠ some (JsonValue.str s)) :
    parseTableNameForRails lineData = none := by
  unfold parseTableNameForRails
  rw [(assertString_eq_none lineData "timestamp").2 h]
  rfl

theorem string_or_not (v : Option JsonValue) :
    (∃ s, v = some (JsonValue.str s)) ∨ ∀ s, v ≠ some (JsonValue.str s) := by
  cases v with
  | none => exact Or.inr (by simp)
  | some x =>
    cases x with
    | str s => exact Or.inl ⟨s, rfl⟩
    | num _ => exact Or.inr (by simp)
    | bool _ => exact Or.inr (by simp)
    | null => exact Or.inr (by simp)
    | composite _ => exact Or.inr (by simp)

/-- The access parser on a decoded object: it returns exactly when `request`
and `timestamp` are both strings, and panics otherwise. -/
theorem parseNginxAccessLine_object (unmarshal : Unmarshal) (host line : Str) (m : Record)
    (hu : unmarshal line = Unmarshalled.object m) :
    (∃ req ts, m.get "request" = some (JsonValue.str req) ∧
      m.get "timestamp" = some (JsonValue.str ts) ∧
      parseNginxAccessLine unmarshal host line = Outcome.ok (accessRecord host m req ts)) ∨
    (((∀ s, m.get "request" ≠ some (JsonValue.str s)) ∨
      (∀ s, m.get "timestamp" ≠ some (JsonValue.str s))) ∧
      parseNginxAccessLine unmarshal host line = Outcome.panic) := by
  have hreq : ((m.set "host" (JsonValue.str host)).set "log_type"
      (JsonValue.str "nginx-access")).get "request" = m.get "request" := by simp
  rcases string_or_not (m.get "request") with ⟨req, hr⟩ | hr
  · have hts : (splitRequest req ((m.set "host" (JsonValue.str host)).set "log_type"
        (JsonValue.str "nginx-access"))).get "timestamp" = m.get "timestamp" := by
      rw [splitRequest_get_of_ne _ _ _ (by simp) (by simp) (by simp) (by simp)]
      simp
    rcases string_or_not (m.get "timestamp") with ⟨ts, ht⟩ | ht
    · refine Or.inl ⟨req, ts, hr, ht, ?_⟩
      unfold parseNginxAccessLine
      simp only [hu]
      rw [parseRawRequest_eq _ req (hreq.trans hr)]
      simp only []
      rw [parseNginxAccessTimestamp_eq _ ts (hts.trans ht)]
      rfl
    · refine Or.inr ⟨Or.inr ht, ?_⟩
      unfold parseNginxAccessLine
      simp only [hu]
      rw [parseRawRequest_eq _ req (hreq.trans hr)]
      simp only []
      rw [parseNginxAccessTimestamp_eq_none _ (fun s => hts ▸ ht s)]
  · refine Or.inr ⟨Or.inl hr, ?_⟩
    unfold parseNginxAccessLine
    simp only [hu]
    rw [parseRawRequest_eq_none _ (fun s => hreq ▸ hr s)]

/-- The rails parser on a decoded object: it returns exactly when `timestamp`
is a string, and panics otherwise. -/
theorem parseRailsLine_object (unmarshal : Unmarshal) (host line : Str) (m : Record)
    (hu : unmarshal line = Unmarshalled.object m) :
    (∃ ts, m.get "timestamp" = some (JsonValue.str ts) ∧
      parseRailsLine unmarshal host line = Outcome.ok (railsRecord host m ts)) ∨
    ((∀ s, m.get "timestamp" ≠ some (JsonValue.str s)) ∧
      parseRailsLine unmarshal host line = Outcome.panic) := by
  have hts : ((m.set "host" (JsonValue.str host)).set "log_type"
      (JsonValue.str "rails")).get "timestamp" = m.get "timestamp" := by simp
  rcases string_or_not (m.get "timestamp") with ⟨ts, ht⟩ | ht
  · refine Or.inl ⟨ts, ht, ?_⟩
    unfold parseRailsLine
    simp only [hu]
    rw [parseTableNameForRails_eq _ ts (hts.trans ht)]
    rfl
  · refine Or.inr ⟨ht, ?_⟩
    unfold parseRailsLine
    simp only [hu]
    rw [parseTableNameForRails_eq_none _ (fun s => hts ▸ ht s)]

/-- A successful access parse comes from a decoded object with string `request`
and `timestamp`. -/
theorem parseNginxAccessLine_ok (unmarshal : Unmarshal) (host line : Str) (r : Record)
    (h : parseNginxAccessLine unmarshal host line = Outcome.ok r) :
    ∃ m req ts, unmarshal line = Unmarshalled.object m ∧
      m.get "request" = some (JsonValue.str req) ∧
      m.get "timestamp" = some (JsonValue.str ts) ∧ r = accessRecord host m req ts := by
  cases hu : unmarshal line with
  | failed m => simp [parseNginxAccessLine, hu] at h
  | nilMap => simp [parseNginxAccessLine, hu] at h
  | object m =>
    rcases parseNginxAccessLine_object unmarshal host line m hu with
      ⟨req, ts, hr, ht, hok⟩ | ⟨_, hp⟩
    · rw [hok] at h
      exact ⟨m, req, ts, rfl, hr, ht, (Outcome.ok.inj h).symm⟩
    · rw [hp] at h
      cases h

/-- A successful rails parse comes from a decoded object with a string
`timestamp`. -/
theorem parseRailsLine_ok (unmarshal : Unmarshal) (host line : Str) (r : Record)
    (h : parseRailsLine unmarshal host line = Outcome.ok r) :
    ∃ m ts, unmarshal line = Unmarshalled.object m ∧
      m.get "timestamp" = some (JsonValue.str ts) ∧ r = railsRecord host m ts := by
  cases hu : unmarshal line with
  | failed m => simp [parseRailsLine, hu] at h
  | nilMap => simp [parseRailsLine, hu] at h
  | object m =>
    rcases parseRailsLine_object unmarshal host line m hu with ⟨ts, ht, hok⟩ | ⟨_, hp⟩
    · rw [hok] at h
      exact ⟨m, ts, rfl, ht, (Outcome.ok.inj h).symm⟩
    · rw [hp] at h
      cases h

theorem accessTimestamp_get_of_ne (ts : Str) (lineData : Record) (k : Str)
    (h1 : k ≠ "timestamp") (h2 : k ≠ "tableName") :
    (accessTimestamp ts lineData).get k = lineData.get k := by
  unfold accessTimestamp
  split <;> simp [h1, h2]

theorem accessRecord_get (host : Str) (m : Record) (req ts k : Str) :
    (accessRecord host m req ts).get k
      = ((accessTimestamp ts (splitRequest req ((m.set "host" (JsonValue.str host)).set
          "log_type" (JsonValue.str "nginx-access")))).get k).filter (fun v => !isBlank v) := rfl

theorem takeWhile_of_not_mem (c : Char) (s : Str) (h : c ∉ s) :
    s.takeWhile (fun d => d != c) = s := by
  induction s with
  | nil => rfl
  | cons d s ih =>
    have h1 : ¬ d = c := fun e => h (by simp [e])
    have h2 : c ∉ s := fun e => h (by simp [e])
    simp [List.takeWhile_cons, h1, ih h2]

theorem splitRequest_get_method (req a b c : Str) (lineData : Record)
    (h3 : Split req " " = [a, b, c]) :
    (splitRequest req lineData).get "method" = some (JsonValue.str a) := by
  unfold splitRequest splitPath
  rw [h3]
  simp only []
  split <;> simp

theorem splitRequest_get_path (req a b c : Str) (lineData : Record)
    (h3 : Split req " " = [a, b, c]) :
    (splitRequest req lineData).get "path"
      = some (JsonValue.str (b.takeWhile (fun d => d != '?'))) := by
  unfold splitRequest splitPath
  rw [h3]
  simp only []
  split
  · simp
  · rename_i hq
    simp [takeWhile_of_not_mem '?' b hq]

theorem isBlank_str (s : Str) : isBlank (JsonValue.str s) = decide (s = "-" ∨ s = "") := by
  unfold isBlank
  by_cases h1 : s = "-" <;> by_cases h2 : s = "" <;> simp [h1, h2]

theorem filter_not_blank (v : Option JsonValue) (w : JsonValue)
    (h : v.filter (fun x => !isBlank x) = some w) : v = some w ∧ isBlank w = false := by
  cases v with
  | none => simp [Option.filter] at h
  | some x =>
    simp only [Option.filter] at h
    split at h
    · rename_i hx
      simp at h hx
      exact ⟨by rw [h], h ▸ hx⟩
    · simp at h

theorem filter_str (s : Str) :
    (some (JsonValue.str s)).filter (fun v => !isBlank v)
      = if s = "-" ∨ s = "" then none else some (JsonValue.str s) := by
  by_cases h : s = "-" ∨ s = ""
  · simp [Option.filter, isBlank_str, h]
  · simp [Option.filter, isBlank_str, h]

/-! ## Lemmas: decimal digits -/

theorem digitChar_isDigit (k : Nat) (h : k < 10) : isDigit (digitChar k) = true := by
  interval_cases k <;> decide

theorem digitVal_digitChar (k : Nat) (h : k < 10) : digitVal (digitChar k) = k := by
  interval_cases k <;> decide

theorem isDigit_bounds (c : Char) (h : isDigit c = true) : 48 ≤ c.toNat ∧ c.toNat ≤ 57 := by
  unfold isDigit at h
  simp at h
  exact ⟨h.1, h.2⟩

theorem digitVal_le (c : Char) (h : isDigit c = true) : digitVal c ≤ 9 := by
  have := isDigit_bounds c h
  unfold digitVal
  omega

theorem digitChar_digitVal (c : Char) (h : isDigit c = true) : digitChar (digitVal c) = c := by
  have hb := isDigit_bounds c h
  have hc : c = Char.ofNat c.toNat := by simp
  have hv : digitVal c = c.toNat - 48 := rfl
  rw [hv]
  generalize hn : c.toNat = n at hb hc
  rw [hc]
  obtain ⟨h1, h2⟩ := hb
  interval_cases n <;> decide

theorem digit_ne_of_not (c x : Char) (h : isDigit c = true) (hx : isDigit x = false) : c ≠ x := by
  intro e
  rw [e, hx] at h
  cases h

theorem digitsRev_one (fuel x : Nat) (hx : x < 10) (hf : 0 < fuel) :
    digitsRev fuel x = [digitChar x] := by
  obtain ⟨f, rfl⟩ : ∃ f, fuel = f + 1 := ⟨fuel - 1, by omega⟩
  simp [digitsRev, hx, Nat.mod_eq_of_lt hx]

theorem digitsRev_two (fuel x : Nat) (h1 : 10 ≤ x) (hx : x < 100) (hf : 1 < fuel) :
    digitsRev fuel x = [digitChar (x % 10), digitChar (x / 10)] := by
  obtain ⟨f, rfl⟩ : ∃ f, fuel = f + 1 := ⟨fuel - 1, by omega⟩
  have h2 : ¬ x < 10 := by omega
  simp [digitsRev, h2, digitsRev_one f (x / 10) (by omega) (by omega)]

theorem digitsRev_three (fuel x : Nat) (h1 : 100 ≤ x) (hx : x < 1000) (hf : 2 < fuel) :
    digitsRev fuel x = [digitChar (x % 10), digitChar (x / 10 % 10), digitChar (x / 100)] := by
  obtain ⟨f, rfl⟩ : ∃ f, fuel = f + 1 := ⟨fuel - 1, by omega⟩
  have h2 : ¬ x < 10 := by omega
  have h3 : x / 10 / 10 = x / 100 := by omega
  simp [digitsRev, h2, digitsRev_two f (x / 10) (by omega) (by omega) (by omega), h3]

theorem digitsRev_four (fuel x : Nat) (h1 : 1000 ≤ x) (hx : x < 10000) (hf : 3 < fuel) :
    digitsRev fuel x
      = [digitChar (x % 10), digitChar (x / 10 % 10), digitChar (x / 100 % 10),
          digitChar (x / 1000)] := by
  obtain ⟨f, rfl⟩ : ∃ f, fuel = f + 1 := ⟨fuel - 1, by omega⟩
  have h2 : ¬ x < 10 := by omega
  have h3 : x / 10 / 10 = x / 100 := by omega
  have h4 : x / 10 / 100 = x / 1000 := by omega
  simp [digitsRev, h2, digitsRev_three f (x / 10) (by omega) (by omega) (by omega), h3, h4]

/-- A number below 100 is printed with two digits. -/
theorem appendInt_two (x : Nat) (hx : x < 100) :
    appendInt x 2 = [digitChar (x / 10), digitChar (x % 10)] := by
  unfold appendInt
  by_cases h : x < 10
  · have h0 : x / 10 = 0 := by omega
    have h1 : x % 10 = x := by omega
    rw [digitsRev_one _ x h (by omega), h0, h1]
    rfl
  · rw [digitsRev_two _ x (by omega) hx (by omega)]
    rfl

/-- A number below 10000 is printed with four digits. -/
theorem appendInt_four (x : Nat) (hx : x < 10000) :
    appendInt x 4
      = [digitChar (x / 1000), digitChar (x / 100 % 10), digitChar (x / 10 % 10),
          digitChar (x % 10)] := by
  unfold appendInt
  by_cases h : x < 10
  · have e1 : x / 1000 = 0 := by omega
    have e2 : x / 100 % 10 = 0 := by omega
    have e3 : x / 10 % 10 = 0 := by omega
    have e4 : x % 10 = x := by omega
    rw [digitsRev_one _ x h (by omega), e1, e2, e3, e4]
    rfl
  · by_cases h2 : x < 100
    · have e1 : x / 1000 = 0 := by omega
      have e2 : x / 100 % 10 = 0 := by omega
      have e3 : x / 10 % 10 = x / 10 := by omega
      rw [digitsRev_two _ x (by omega) h2 (by omega), e1, e2, e3]
      rfl
    · by_cases h3 : x < 1000
      · have e1 : x / 1000 = 0 := by omega
        have e2 : x / 100 % 10 = x / 100 := by omega
        rw [digitsRev_three _ x (by omega) h3 (by omega), e1, e2]
        rfl
      · rw [digitsRev_four _ x (by omega) hx (by omega)]
        rfl

theorem digitsVal_append_single (s : Str) (c : Char) :
    digitsVal (s ++ [c]) = digitsVal s * 10 + digitVal c := by
  simp [digitsVal, List.foldl_append]

theorem digitsVal_digitsRev : ∀ (fuel x : Nat), x < fuel →
    digitsVal (digitsRev fuel x).reverse = x := by
  intro fuel
  induction fuel with
  | zero => intro x h; omega
  | succ fuel ih =>
    intro x h
    simp only [digitsRev, List.reverse_cons, digitsVal_append_single,
      digitVal_digitChar (x % 10) (Nat.mod_lt x (by decide))]
    by_cases hx : x < 10
    · simp only [hx, if_true, List.reverse_nil]
      have : digitsVal [] = 0 := rfl
      rw [this]
      omega
    · simp only [hx, if_false]
      rw [ih (x / 10) (by omega)]
      omega

theorem digitsVal_zeros (k : Nat) (s : Str) :
    digitsVal (List.replicate k '0' ++ s) = digitsVal s := by
  induction k with
  | zero => rfl
  | succ k ih =>
    have h0 : digitVal '0' = 0 := by decide
    have : digitsVal ('0' :: (List.replicate k '0' ++ s)) = digitsVal (List.replicate k '0' ++ s) := by
      simp [digitsVal, h0]
    rw [List.replicate_succ, List.cons_append, this, ih]

/-- The digits `appendInt` prints denote the number printed. -/
theorem digitsVal_appendInt (x width : Nat) : digitsVal (appendInt x width) = x := by
  unfold appendInt
  simp only []
  rw [digitsVal_zeros, digitsVal_digitsRev (x + 1) x (by omega)]

theorem appendInt_inj (x y width : Nat) (h : appendInt x width = appendInt y width) : x = y := by
  have := congrArg digitsVal h
  simpa [digitsVal_appendInt] using this

theorem Format_bigQuery (t : Time) :
    Format t bigQueryTimeFormat
      = appendInt t.year 4 ++ '-' :: (appendInt t.month 2 ++ '-' :: (appendInt t.day 2 ++
          ' ' :: (appendInt t.hour 2 ++ ':' :: (appendInt t.min 2 ++ ':' :: appendInt t.sec 2)))) := by
  simp [Format, bigQueryTimeFormat, formatStd, goString]

theorem tableNameFromTime_eq (t : Time) :
    tableNameFromTime t
      = goString "logs_" ++ (appendInt t.year 4 ++ (appendInt t.month 2 ++ appendInt t.day 2)) := by
  simp [tableNameFromTime, Format, dayLayout, formatStd, goString]

theorem digitChar_inj (a b : Nat) (ha : a < 10) (hb : b < 10) (h : digitChar a = digitChar b) :
    a = b := by
  have := congrArg digitVal h
  rwa [digitVal_digitChar a ha, digitVal_digitChar b hb] at this

theorem appendInt_two_length (x : Nat) (hx : x < 100) : (appendInt x 2).length = 2 := by
  rw [appendInt_two x hx]; rfl

/-- The bucket depends on the calendar date only, and tells two dates apart. -/
theorem tableNameFromTime_inj (t1 t2 : Time) (hm1 : t1.month < 100) (hd1 : t1.day < 100)
    (hm2 : t2.month < 100) (hd2 : t2.day < 100) :
    tableNameFromTime t1 = tableNameFromTime t2 ↔
      t1.year = t2.year ∧ t1.month = t2.month ∧ t1.day = t2.day := by
  constructor
  · intro h
    rw [tableNameFromTime_eq, tableNameFromTime_eq] at h
    have h1 := List.append_cancel_left h
    have hl : (appendInt t1.month 2 ++ appendInt t1.day 2).length
        = (appendInt t2.month 2 ++ appendInt t2.day 2).length := by
      simp [appendInt_two_length, hm1, hd1, hm2, hd2]
    obtain ⟨hy, hrest⟩ := List.append_inj' h1 hl
    obtain ⟨hm, hd⟩ := List.append_inj hrest (by simp [appendInt_two_length, hm1, hm2])
    exact ⟨appendInt_inj _ _ _ hy, appendInt_inj _ _ _ hm, appendInt_inj _ _ _ hd⟩
  · rintro ⟨hy, hm, hd⟩
    rw [tableNameFromTime_eq, tableNameFromTime_eq, hy, hm, hd]

/-! ## Lemmas: what `time.Parse` returns -/

theorem lookup_lt : ∀ (tab : List Str) (val : Str) (i : Nat) (rest : Str),
    lookup tab val = some (i, rest) → i < tab.length := by
  intro tab
  induction tab with
  | nil => intro val i rest h; simp [lookup] at h
  | cons v tab ih =>
    intro val i rest h
    simp only [lookup] at h
    split at h
    · simp at h
      simp [← h.1]
    · cases hl : lookup tab val with
      | none => simp [hl] at h
      | some r =>
        obtain ⟨j, rest1⟩ := r
        simp [hl] at h
        have := ih val j rest1 hl
        simp [← h.1]
        omega

theorem getnum_le (s : Str) (fixed : Bool) (n : Nat) (rest : Str)
    (h : getnum s fixed = some (n, rest)) : n ≤ 99 := by
  unfold getnum at h
  split at h
  · simp at h
  · rename_i c
    split at h
    · rename_i hc
      simp at h hc
      have := digitVal_le c hc.1
      omega
    · simp at h
  · rename_i c d more
    split at h
    · simp at h
    · rename_i hc
      simp at hc
      split at h
      · split at h
        · simp at h
        · simp at h
          have := digitVal_le c hc
          omega
      · rename_i hdd
        simp at hdd h
        have := digitVal_le c hc
        have := digitVal_le d hdd
        omega

theorem parseStd_bounded (std : Std) (value : Str) (t t1 : Time) (rest : Str)
    (hb : t.Bounded) (h : parseStd std value t = some (t1, rest)) : t1.Bounded := by
  obtain ⟨b1, b2, b3, b4, b5, b6⟩ := hb
  cases std with
  | longYear =>
    simp only [parseStd] at h
    split at h
    · rename_i a b c d more
      split at h
      · rename_i hdig
        simp at hdig h
        have ha := digitVal_le a hdig.1.1.1
        have hb := digitVal_le b hdig.1.1.2
        have hc := digitVal_le c hdig.1.2
        have hd := digitVal_le d hdig.2
        rw [← h.1]
        refine ⟨?_, b2, b3, b4, b5, b6⟩
        simp [digitsVal]
        omega
      · simp at h
    · simp at h
  | zeroMonth =>
    simp only [parseStd] at h
    split at h
    · rename_i n more hg
      split at h
      · simp at h
      · rename_i hr
        simp at h
        rw [← h.1]
        exact ⟨b1, by simp; omega, by simp; omega, b4, b5, b6⟩
    · simp at h
  | month =>
    simp only [parseStd] at h
    split at h
    · rename_i i more hl
      simp at h
      have := lookup_lt _ _ _ _ hl
      have hlen : shortMonthNames.length = 12 := rfl
      rw [← h.1]
      exact ⟨b1, by simp, by simp; omega, b4, b5, b6⟩
    · simp at h
  | zeroDay =>
    simp only [parseStd] at h
    split at h
    · simp at h
      rw [← h.1]
      exact ⟨b1, b2, b3, b4, b5, b6⟩
    · simp at h
  | hour =>
    simp only [parseStd] at h
    split at h
    · split at h
      · simp at h
      · rename_i hr
        simp at h
        rw [← h.1]
        exact ⟨b1, b2, b3, by simp; omega, b5, b6⟩
    · simp at h
  | zeroMinute =>
    simp only [parseStd] at h
    split at h
    · split at h
      · simp at h
      · rename_i hr
        simp at h
        rw [← h.1]
        exact ⟨b1, b2, b3, b4, by simp; omega, b6⟩
    · simp at h
  | zeroSecond =>
    simp only [parseStd] at h
    split at h
    · split at h
      · simp at h
      · rename_i hr
        split at h
        · split at h
          · simp at h
            rw [← h.1]
            exact ⟨b1, b2, b3, b4, b5, by simp; omega⟩
          · simp at h
            rw [← h.1]
            exact ⟨b1, b2, b3, b4, b5, by simp; omega⟩
        · simp at h
          rw [← h.1]
          exact ⟨b1, b2, b3, b4, b5, by simp; omega⟩
    · simp at h

theorem parseChunks_bounded : ∀ (chunks : List (Str × Std)) (value : Str) (t t1 : Time)
    (rest : Str), t.Bounded → parseChunks chunks value t = some (t1, rest) → t1.Bounded := by
  intro chunks
  induction chunks with
  | nil =>
    intro value t t1 rest hb h
    simp [parseChunks] at h
    exact h.1 ▸ hb
  | cons chunk chunks ih =>
    intro value t t1 rest hb h
    obtain ⟨pre, std⟩ := chunk
    simp only [parseChunks] at h
    split at h
    · simp at h
    · split at h
      · simp at h
      · rename_i t2 v2 hp
        exact ih _ _ _ _ (parseStd_bounded std _ _ _ _ hb hp) h

/-- What `time.Parse` returns is a valid calendar date and clock time. -/
theorem Parse_valid (layout : Layout) (value : Str) (t : Time)
    (h : Parse layout value = some t) : t.Valid := by
  unfold Parse at h
  split at h
  · simp at h
  · rename_i t1 v1 hp
    have hb := parseChunks_bounded _ _ _ _ _ (by unfold Time.Bounded; decide) hp
    split at h
    · simp at h
    · split at h
      · simp at h
      · split at h
        · simp at h
        · rename_i hday
          simp at h
          subst h
          obtain ⟨b1, b2, b3, b4, b5, b6⟩ := hb
          exact ⟨b1, b2, b3, by omega, by omega, b4, b5, b6⟩

/-! ## Lemmas: the canonical form read back -/

theorem digit_ne_blank (c : Char) (h : isDigit c = true) : c ≠ ' ' :=
  digit_ne_of_not c ' ' h (by decide)

/-- The canonical grammar reads a string of the canonical form field by field. -/
theorem parseChunks_canonical (y1 y2 y3 y4 m1 m2 d1 d2 h1 h2 n1 n2 s1 s2 : Char) (t0 : Time)
    (hy1 : isDigit y1 = true) (hy2 : isDigit y2 = true) (hy3 : isDigit y3 = true)
    (hy4 : isDigit y4 = true) (hm1 : isDigit m1 = true) (hm2 : isDigit m2 = true)
    (hd1 : isDigit d1 = true) (hd2 : isDigit d2 = true) (hh1 : isDigit h1 = true)
    (hh2 : isDigit h2 = true) (hn1 : isDigit n1 = true) (hn2 : isDigit n2 = true)
    (hs1 : isDigit s1 = true) (hs2 : isDigit s2 = true)
    (hmonth1 : 1 ≤ digitVal m1 * 10 + digitVal m2) (hmonth2 : digitVal m1 * 10 + digitVal m2 ≤ 12)
    (hhour : digitVal h1 * 10 + digitVal h2 < 24) (hmin : digitVal n1 * 10 + digitVal n2 < 60)
    (hsec : digitVal s1 * 10 + digitVal s2 < 60) :
    parseChunks bigQueryTimeFormat.chunks
        [y1, y2, y3, y4, '-', m1, m2, '-', d1, d2, ' ', h1, h2, ':', n1, n2, ':', s1, s2] t0
      = some (⟨digitsVal [y1, y2, y3, y4], digitVal m1 * 10 + digitVal m2,
          digitVal d1 * 10 + digitVal d2, digitVal h1 * 10 + digitVal h2,
          digitVal n1 * 10 + digitVal n2, digitVal s1 * 10 + digitVal s2, t0.nsec⟩, []) := by
  have hb := digit_ne_blank h1 hh1
  have e1 : ¬ (digitVal m1 = 0 ∧ digitVal m2 = 0 ∨ 12 < digitVal m1 * 10 + digitVal m2) := by
    omega
  have e2 : ¬ 24 ≤ digitVal h1 * 10 + digitVal h2 := by omega
  have e3 : ¬ 60 ≤ digitVal n1 * 10 + digitVal n2 := by omega
  have e4 : ¬ 60 ≤ digitVal s1 * 10 + digitVal s2 := by omega
  simp [parseChunks, bigQueryTimeFormat, skip, skipLoop, cutspace, parseStd, getnum, goString,
    hy1, hy2, hy3, hy4, hm1, hm2, hd1, hd2, hh1, hh2, hn1, hn2, hs1, hs2, hb, e1, e2, e3, e4]

theorem daysIn_le (m year : Nat) (hm : m ≤ 12) : daysIn m year ≤ 31 := by
  unfold daysIn
  split
  · omega
  · interval_cases m <;> decide

theorem Time.Valid.day_le {t : Time} (h : t.Valid) : t.day ≤ 31 := by
  obtain ⟨_, _, v3, _, v5, _⟩ := h
  have := daysIn_le t.month t.year v3
  omega

/-- The canonical text of a valid time, character by character. -/
theorem Format_valid (t : Time) (h : t.Valid) :
    Format t bigQueryTimeFormat
      = [digitChar (t.year / 1000), digitChar (t.year / 100 % 10), digitChar (t.year / 10 % 10),
          digitChar (t.year % 10), '-', digitChar (t.month / 10), digitChar (t.month % 10), '-',
          digitChar (t.day / 10), digitChar (t.day % 10), ' ', digitChar (t.hour / 10),
          digitChar (t.hour % 10), ':', digitChar (t.min / 10), digitChar (t.min % 10), ':',
          digitChar (t.sec / 10), digitChar (t.sec % 10)] := by
  have hday := h.day_le
  obtain ⟨v1, v2, v3, v4, v5, v6, v7, v8⟩ := h
  rw [Format_bigQuery, appendInt_four _ (by omega), appendInt_two _ (by omega),
    appendInt_two _ (by omega), appendInt_two _ (by omega), appendInt_two _ (by omega),
    appendInt_two _ (by omega)]
  rfl

/-- The canonical text of a valid time has the canonical form. -/
theorem Format_canonical (t : Time) (h : t.Valid) :
    isCanonical (Format t bigQueryTimeFormat) = true := by
  rw [Format_valid t h]
  have hday := h.day_le
  obtain ⟨v1, v2, v3, v4, v5, v6, v7, v8⟩ := h
  simp only [isCanonical, digitChar_isDigit (t.year / 1000) (by omega),
    digitChar_isDigit (t.year / 100 % 10) (by omega),
    digitChar_isDigit (t.year / 10 % 10) (by omega), digitChar_isDigit (t.year % 10) (by omega),
    digitChar_isDigit (t.month / 10) (by omega), digitChar_isDigit (t.month % 10) (by omega),
    digitChar_isDigit (t.day / 10) (by omega), digitChar_isDigit (t.day % 10) (by omega),
    digitChar_isDigit (t.hour / 10) (by omega), digitChar_isDigit (t.hour % 10) (by omega),
    digitChar_isDigit (t.min / 10) (by omega), digitChar_isDigit (t.min % 10) (by omega),
    digitChar_isDigit (t.sec / 10) (by omega), digitChar_isDigit (t.sec % 10) (by omega)]
  rfl

/-- Round trip: the canonical grammar reads the canonical text of a valid time
back, up to the fraction of a second, which the text does not show. -/
theorem Parse_Format (t : Time) (h : t.Valid) :
    Parse bigQueryTimeFormat (Format t bigQueryTimeFormat) = some { t with nsec := 0 } := by
  rw [Format_valid t h]
  have hday := h.day_le
  obtain ⟨v1, v2, v3, v4, v5, v6, v7, v8⟩ := h
  have hp := parseChunks_canonical
    (digitChar (t.year / 1000)) (digitChar (t.year / 100 % 10)) (digitChar (t.year / 10 % 10))
    (digitChar (t.year % 10)) (digitChar (t.month / 10)) (digitChar (t.month % 10))
    (digitChar (t.day / 10)) (digitChar (t.day % 10)) (digitChar (t.hour / 10))
    (digitChar (t.hour % 10)) (digitChar (t.min / 10)) (digitChar (t.min % 10))
    (digitChar (t.sec / 10)) (digitChar (t.sec % 10)) ⟨0, 1, 1, 0, 0, 0, 0⟩
    (digitChar_isDigit _ (by omega)) (digitChar_isDigit _ (by omega))
    (digitChar_isDigit _ (by omega)) (digitChar_isDigit _ (by omega))
    (digitChar_isDigit _ (by omega)) (digitChar_isDigit _ (by omega))
    (digitChar_isDigit _ (by omega)) (digitChar_isDigit _ (by omega))
    (digitChar_isDigit _ (by omega)) (digitChar_isDigit _ (by omega))
    (digitChar_isDigit _ (by omega)) (digitChar_isDigit _ (by omega))
    (digitChar_isDigit _ (by omega)) (digitChar_isDigit _ (by omega))
    (by rw [digitVal_digitChar _ (by omega), digitVal_digitChar _ (by omega)]; omega)
    (by rw [digitVal_digitChar _ (by omega), digitVal_digitChar _ (by omega)]; omega)
    (by rw [digitVal_digitChar _ (by omega), digitVal_digitChar _ (by omega)]; omega)
    (by rw [digitVal_digitChar _ (by omega), digitVal_digitChar _ (by omega)]; omega)
    (by rw [digitVal_digitChar _ (by omega), digitVal_digitChar _ (by omega)]; omega)
  have ey : digitsVal [digitChar (t.year / 1000), digitChar (t.year / 100 % 10),
      digitChar (t.year / 10 % 10), digitChar (t.year % 10)] = t.year := by
    simp only [digitsVal, List.foldl, digitVal_digitChar (t.year / 1000) (by omega),
      digitVal_digitChar (t.year / 100 % 10) (by omega),
      digitVal_digitChar (t.year / 10 % 10) (by omega),
      digitVal_digitChar (t.year % 10) (by omega)]
    omega
  have e2 : ∀ x, x < 100 → digitVal (digitChar (x / 10)) * 10 + digitVal (digitChar (x % 10)) = x := by
    intro x hx
    rw [digitVal_digitChar _ (by omega), digitVal_digitChar _ (by omega)]
    omega
  rw [ey, e2 _ (by omega), e2 _ (by omega), e2 _ (by omega), e2 _ (by omega), e2 _ (by omega)] at hp
  unfold Parse
  rw [hp]
  have hs : skip [] bigQueryTimeFormat.suffix = some [] := rfl
  simp only [hs]
  simp
  omega

theorem tableNameFromTime_nsec (t : Time) (n : Nat) :
    tableNameFromTime { t with nsec := n } = tableNameFromTime t := rfl

theorem set_same (r : Record) (k : Str) (v : JsonValue) (h : r.get k = some v) :
    r.set k v = r := by
  funext j
  by_cases hj : j = k
  · simp only [GoMap.set, hj, if_true]
    exact h.symm
  · simp only [GoMap.set, hj, if_false]

/-- The rails entry point on a record a normaliser has filled from the valid
time `t`: the canonical text parses back and the record stays as it is. -/
theorem parseTableNameForRails_normalized (r : Record) (t : Time) (hv : t.Valid)
    (hts : r.get "timestamp" = some (JsonValue.str (Format t bigQueryTimeFormat)))
    (htn : r.get "tableName" = some (JsonValue.str (tableNameFromTime t))) :
    parseTableNameForRails r = some r := by
  rw [parseTableNameForRails_eq r _ hts]
  unfold railsTableName
  rw [Parse_Format t hv]
  simp only [tableNameFromTime_nsec]
  rw [set_same r _ _ htn]

/-! ## Lemmas: `timestamp` and `tableName` in the records -/

theorem Format_not_blank (t : Time) :
    isBlank (JsonValue.str (Format t bigQueryTimeFormat)) = false := by
  have hl : 5 ≤ (Format t bigQueryTimeFormat).length := by
    rw [Format_bigQuery]
    simp only [List.length_append, List.length_cons]
    omega
  rw [isBlank_str]
  have h1 : Format t bigQueryTimeFormat ≠ goString "-" := by
    intro e
    rw [e] at hl
    exact absurd hl (by decide)
  have h2 : Format t bigQueryTimeFormat ≠ goString "" := by
    intro e
    rw [e] at hl
    exact absurd hl (by decide)
  simp [h1, h2]

theorem tableNameFromTime_not_blank (t : Time) :
    isBlank (JsonValue.str (tableNameFromTime t)) = false := by
  have hl : 5 ≤ (tableNameFromTime t).length := by
    rw [tableNameFromTime_eq]
    simp only [List.length_append]
    have : (goString "logs_").length = 5 := rfl
    omega
  rw [isBlank_str]
  have h1 : tableNameFromTime t ≠ goString "-" := by
    intro e
    rw [e] at hl
    exact absurd hl (by decide)
  have h2 : tableNameFromTime t ≠ goString "" := by
    intro e
    rw [e] at hl
    exact absurd hl (by decide)
  simp [h1, h2]

theorem accessRecord_parsed (host : Str) (m : Record) (req ts : Str) (t : Time)
    (hp : Parse nginxAccessLayout ts = some t) :
    (accessRecord host m req ts).get "timestamp"
        = some (JsonValue.str (Format t bigQueryTimeFormat)) ∧
      (accessRecord host m req ts).get "tableName"
        = some (JsonValue.str (tableNameFromTime t)) := by
  constructor
  · rw [accessRecord_get]
    simp [accessTimestamp, hp, Option.filter, Format_not_blank]
  · rw [accessRecord_get]
    simp [accessTimestamp, hp, Option.filter, tableNameFromTime_not_blank]

theorem accessRecord_unparsed (host : Str) (m : Record) (req ts k : Str)
    (hp : Parse nginxAccessLayout ts = none) (hk : k = "timestamp" ∨ k = "tableName") :
    (accessRecord host m req ts).get k = (m.get k).filter (fun v => !isBlank v) := by
  rw [accessRecord_get]
  have e : accessTimestamp ts (splitRequest req ((m.set "host" (JsonValue.str host)).set
      "log_type" (JsonValue.str "nginx-access")))
      = splitRequest req ((m.set "host" (JsonValue.str host)).set "log_type"
        (JsonValue.str "nginx-access")) := by
    simp [accessTimestamp, hp]
  rw [e]
  rcases hk with hk | hk
  · rw [hk, splitRequest_get_of_ne _ _ _ (by simp) (by simp) (by simp) (by simp)]
    simp
  · rw [hk, splitRequest_get_of_ne _ _ _ (by simp) (by simp) (by simp) (by simp)]
    simp

theorem railsRecord_get_of_ne (host : Str) (m : Record) (ts k : Str) (h1 : k ≠ "host")
    (h2 : k ≠ "log_type") (h3 : k ≠ "tableName") :
    (railsRecord host m ts).get k = m.get k := by
  unfold railsRecord railsTableName
  split <;> simp [h1, h2, h3]

theorem railsRecord_tableName (host : Str) (m : Record) (ts : Str) :
    (railsRecord host m ts).get "tableName"
      = match Parse bigQueryTimeFormat ts with
        | some t => some (JsonValue.str (tableNameFromTime t))
        | none => m.get "tableName" := by
  unfold railsRecord railsTableName
  split <;> simp

theorem parseNginxErrorTimestamp_stamp (raw : Str) (lineData : Record) :
    ((parseNginxErrorTimestamp raw lineData).get "timestamp" = lineData.get "timestamp" ∧
      (parseNginxErrorTimestamp raw lineData).get "tableName" = lineData.get "tableName") ∨
    ∃ t, t.Valid ∧
      (parseNginxErrorTimestamp raw lineData).get "timestamp"
        = some (JsonValue.str (Format t bigQueryTimeFormat)) ∧
      (parseNginxErrorTimestamp raw lineData).get "tableName"
        = some (JsonValue.str (tableNameFromTime t)) := by
  cases hp : Parse nginxErrorLayout raw with
  | none =>
    left
    simp [parseNginxErrorTimestamp, hp]
  | some t =>
    right
    exact ⟨t, Parse_valid _ _ _ hp, by simp [parseNginxErrorTimestamp, hp],
      by simp [parseNginxErrorTimestamp, hp]⟩

/-- The header of an error-log line leaves `timestamp` and `tableName` both
unset, or sets both from one instant: the one read from the line, or `now`. -/
theorem parseNginxErrorHeader_stamp (now : Time) (header : Str) :
    ∃ r, parseNginxErrorHeader now header GoMap.empty = some r ∧
      ((r.get "timestamp" = none ∧ r.get "tableName" = none) ∨
        ∃ t, (t = now ∨ t.Valid) ∧
          r.get "timestamp" = some (JsonValue.str (Format t bigQueryTimeFormat)) ∧
          r.get "tableName" = some (JsonValue.str (tableNameFromTime t))) := by
  cases hc : Contains header " [error] " with
  | false =>
    refine ⟨_, parseNginxErrorHeader_fallback now header _ hc, Or.inr ⟨now, Or.inl rfl, ?_, ?_⟩⟩
    · simp
    · simp
  | true =>
    by_cases h2 : (Split header " [error] ").length = 2
    · obtain ⟨date, tail, hdt⟩ := length_two _ h2
      have hstamp := parseNginxErrorTimestamp_stamp date GoMap.empty
      by_cases h3 : (SplitN tail " " 3).length = 3
      · obtain ⟨a, b, rest, habc⟩ := length_three _ h3
        refine ⟨_, parseNginxErrorHeader_marked now header date tail a b rest _ hdt habc, ?_⟩
        rcases hstamp with ⟨e1, e2⟩ | ⟨t, hv, e1, e2⟩
        · left
          simp [e1, e2]
        · right
          exact ⟨t, Or.inr hv, by simp [e1], by simp [e2]⟩
      · refine ⟨parseNginxErrorTimestamp date GoMap.empty, ?_, ?_⟩
        · unfold parseNginxErrorHeader
          simp [hc, hdt, h3]
        · rcases hstamp with ⟨e1, e2⟩ | ⟨t, hv, e1, e2⟩
          · left
            simp [e1, e2]
          · right
            exact ⟨t, Or.inr hv, e1, e2⟩
    · refine ⟨GoMap.empty, ?_, Or.inl ⟨rfl, rfl⟩⟩
      unfold parseNginxErrorHeader
      simp [hc, h2]

/-- The record of the error parser: `timestamp` and `tableName` are both
unset, or both set from one instant: the one read from the line, or `now`. -/
theorem parseNginxErrorLine_stamp (now : Time) (host line : Str) (r : Record)
    (hok : parseNginxErrorLine now host line = Outcome.ok r) :
    (r.get "timestamp" = none ∧ r.get "tableName" = none) ∨
      ∃ t, (t = now ∨ t.Valid) ∧
        r.get "timestamp" = some (JsonValue.str (Format t bigQueryTimeFormat)) ∧
        r.get "tableName" = some (JsonValue.str (tableNameFromTime t)) := by
  obtain ⟨hdr, r0, hhdr, hr0, _, _, _, _, _, hts, htn⟩ := parseNginxErrorFields_spec now line
  obtain ⟨hdr1, hhdr1, hcase⟩ := parseNginxErrorHeader_stamp now (headerOf line)
  have e : hdr1 = hdr := Option.some.inj (hhdr1.symm.trans hhdr)
  subst e
  rw [parseNginxErrorLine_eq now host line r0 hr0] at hok
  have hr := Outcome.ok.inj hok
  subst hr
  rcases hcase with ⟨e1, e2⟩ | ⟨t, hv, e1, e2⟩
  · left
    simp [hts, htn, e1, e2]
  · right
    exact ⟨t, hv, by simp [hts, e1], by simp [htn, e2]⟩

/-! ## The claims -/

/-- C1 (code defect): on the request line `GET /a?b?c HTTP/1.1` the splitter
sets `path` to `/a` but `query` to `b?`: the text after the second `?` is lost,
so `path + "?" + query` is `/a?b?`, not the second token `/a?b?c`. -/
theorem parseRawRequest_drops_after_second_mark :
    ∃ r, parseRawRequest (GoMap.empty.set "request" (JsonValue.str "GET /a?b?c HTTP/1.1"))
        = some r ∧
      r.get "method" = some (JsonValue.str "GET") ∧
      r.get "path" = some (JsonValue.str "/a") ∧
      r.get "query" = some (JsonValue.str "b?") :=
  ⟨_, rfl, by decide, by decide, by decide⟩

/-- C2 (code defect): the empty object is valid JSON, yet the access parser does
not return on it: the type assertion on the missing `request` field panics; the
assertion on `timestamp` does the same in both JSON parsers when that field is
missing or is not a string, and `null` decodes without error into a nil map
whose first assignment panics. -/
theorem json_parsers_panic_on_valid_json (host : Str) :
    (∃ m, jsonUnmarshal "\x7b\x7d" = Unmarshalled.object m) ∧
    parseNginxAccessLine jsonUnmarshal host "\x7b\x7d" = Outcome.panic ∧
    parseNginxAccessLine jsonUnmarshal host "\x7b\"request\":\"GET / HTTP/1.1\"\x7d"
      = Outcome.panic ∧
    parseRailsLine jsonUnmarshal host "\x7b\"timestamp\":1451703845\x7d" = Outcome.panic ∧
    parseNginxAccessLine jsonUnmarshal host "null" = Outcome.panic :=
  ⟨⟨_, rfl⟩, rfl, rfl, rfl, rfl⟩

/-- C3 (as amended): for every host and every line that decodes to an object
whose `request` is a string of exactly three blank-separated tokens and whose
`timestamp` is a string, the access parser returns a record without the key
`request`; its `method` is the first token, unless that token is `""` or
`"-"`, in which case `method` is absent; its `path` is the second token up to
its first `?`, unless that text is `""` or `"-"`, in which case `path` is
absent. -/
theorem parseNginxAccessLine_request (unmarshal : Unmarshal) (host line : Str) (m : Record)
    (req ts a b c : Str) (hu : unmarshal line = Unmarshalled.object m)
    (hr : m.get "request" = some (JsonValue.str req))
    (ht : m.get "timestamp" = some (JsonValue.str ts))
    (h3 : Split req " " = [a, b, c]) :
    ∃ r, parseNginxAccessLine unmarshal host line = Outcome.ok r ∧
      r.get "request" = none ∧
      r.get "method" = (if a = "-" ∨ a = "" then none else some (JsonValue.str a)) ∧
      r.get "path" = (if b.takeWhile (fun d => d != '?') = "-" ∨ b.takeWhile (fun d => d != '?') = ""
        then none else some (JsonValue.str (b.takeWhile (fun d => d != '?')))) := by
  rcases parseNginxAccessLine_object unmarshal host line m hu with
    ⟨req1, ts1, hr1, ht1, hok⟩ | ⟨hbad, _⟩
  · have e1 : req1 = req := by
      have := hr1.symm.trans hr
      simpa using this
    have e2 : ts1 = ts := by
      have := ht1.symm.trans ht
      simpa using this
    subst e1 e2
    refine ⟨_, hok, ?_, ?_, ?_⟩
    · rw [accessRecord_get, accessTimestamp_get_of_ne _ _ _ (by simp) (by simp)]
      simp
    · rw [accessRecord_get, accessTimestamp_get_of_ne _ _ _ (by simp) (by simp),
        splitRequest_get_method _ a b c _ h3, filter_str]
    · rw [accessRecord_get, accessTimestamp_get_of_ne _ _ _ (by simp) (by simp),
        splitRequest_get_path _ a b c _ h3, filter_str]
  · rcases hbad with hb | hb
    · exact absurd hr (hb req)
    · exact absurd ht (hb ts)

/-- C3 at the line
`{"request":"GET /a?b=1 HTTP/1.1","timestamp":"02/Jan/2016:03:04:05 +0000"}`. -/
theorem parseNginxAccessLine_request_witness :
    ∃ r, parseNginxAccessLine jsonUnmarshal "web1"
        "\x7b\"request\":\"GET /a?b=1 HTTP/1.1\",\"timestamp\":\"02/Jan/2016:03:04:05 +0000\"\x7d"
        = Outcome.ok r ∧
      r.get "request" = none ∧
      r.get "method" = some (JsonValue.str "GET") ∧
      r.get "path" = some (JsonValue.str "/a") :=
  parseNginxAccessLine_request jsonUnmarshal "web1"
    "\x7b\"request\":\"GET /a?b=1 HTTP/1.1\",\"timestamp\":\"02/Jan/2016:03:04:05 +0000\"\x7d"
    _ "GET /a?b=1 HTTP/1.1" "02/Jan/2016:03:04:05 +0000" "GET" "/a?b=1" "HTTP/1.1" rfl
    (by decide) (by decide) (by decide)

/-- C3 as stated fails: the request line `- - HTTP/1.1` has exactly three
tokens, and the record has neither `method` nor `path`, because the closing
loop removes every field that holds `"-"`. -/
theorem parseNginxAccessLine_dash_tokens :
    Split "- - HTTP/1.1" " " = ["-", "-", "HTTP/1.1"] ∧
    ∃ r, parseNginxAccessLine jsonUnmarshal "web1"
        "\x7b\"request\":\"- - HTTP/1.1\",\"timestamp\":\"02/Jan/2016:03:04:05 +0000\"\x7d"
        = Outcome.ok r ∧
      r.get "method" = none ∧ r.get "path" = none :=
  ⟨by decide, _, rfl, by decide, by decide⟩

/-- C4 (as amended): on every host and line on which the access parser returns
a record, no field of the record holds `""` or `"-"`; and every decoded field
that holds `""` or `"-"` is absent from the record, unless its key is one the
parser itself assigns (`host`, `log_type`, `method`, `path`, `query`,
`tableName`). -/
theorem parseNginxAccessLine_strips_blank (unmarshal : Unmarshal) (host line : Str) (r : Record)
    (hok : parseNginxAccessLine unmarshal host line = Outcome.ok r) :
    (∀ (k : Str) (v : JsonValue), r.get k = some v →
      v ≠ JsonValue.str "" ∧ v ≠ JsonValue.str "-") ∧
    (∀ (m : Record) (k : Str) (v : JsonValue), unmarshal line = Unmarshalled.object m →
      m.get k = some v → v = JsonValue.str "" ∨ v = JsonValue.str "-" →
      k ≠ "host" → k ≠ "log_type" → k ≠ "method" → k ≠ "path" → k ≠ "query" →
      k ≠ "tableName" → r.get k = none) := by
  obtain ⟨m, req, ts, hu, hr, ht, hrec⟩ := parseNginxAccessLine_ok unmarshal host line r hok
  subst hrec
  constructor
  · intro k v hv
    rw [accessRecord_get] at hv
    have hb := (filter_not_blank _ _ hv).2
    constructor
    · intro e
      rw [e] at hb
      exact absurd hb (by decide)
    · intro e
      rw [e] at hb
      exact absurd hb (by decide)
  · intro m1 k v hu1 hv hblank h1 h2 h3 h4 h5 h6
    have em : m1 = m := by
      have := hu1.symm.trans hu
      exact Unmarshalled.object.inj this
    subst em
    have hbv : isBlank v = true := by
      rcases hblank with e | e <;> rw [e] <;> decide
    rw [accessRecord_get]
    by_cases hkr : k = "request"
    · rw [hkr, accessTimestamp_get_of_ne _ _ _ (by simp) (by simp)]
      simp
    · by_cases hkt : k = "timestamp"
      · have hvts : v = JsonValue.str ts := by
          rw [hkt, ht] at hv
          exact (Option.some.inj hv).symm
        have hparse : Parse nginxAccessLayout ts = none := by
          rcases hblank with e | e
          · have : ts = "" := by simpa using (hvts.symm.trans e)
            rw [this]; decide
          · have : ts = "-" := by simpa using (hvts.symm.trans e)
            rw [this]; decide
        have hsame : accessTimestamp ts (splitRequest req ((m1.set "host"
            (JsonValue.str host)).set "log_type" (JsonValue.str "nginx-access")))
            = splitRequest req ((m1.set "host" (JsonValue.str host)).set "log_type"
              (JsonValue.str "nginx-access")) := by
          simp [accessTimestamp, hparse]
        rw [hsame, hkt, splitRequest_get_of_ne _ _ _ (by simp) (by simp) (by simp) (by simp)]
        simp [ht, ← hvts, Option.filter, hbv]
      · rw [accessTimestamp_get_of_ne _ _ _ hkt h6, splitRequest_get_of_ne _ _ _ h3 h4 h5 hkr]
        simp [h1, h2, hv, Option.filter, hbv]

/-- C4 at a line whose `referrer` is `"-"` and whose `user_id` is `""`. -/
theorem parseNginxAccessLine_strips_blank_witness :
    ∃ r, parseNginxAccessLine jsonUnmarshal "web1"
        "\x7b\"request\":\"GET / HTTP/1.1\",\"timestamp\":\"02/Jan/2016:03:04:05 +0000\",\"referrer\":\"-\",\"user_id\":\"\"\x7d"
        = Outcome.ok r ∧
      r.get "referrer" = none ∧ r.get "user_id" = none ∧
      r.get "path" = some (JsonValue.str "/") := by
  have h := parseNginxAccessLine_strips_blank jsonUnmarshal "web1"
    "\x7b\"request\":\"GET / HTTP/1.1\",\"timestamp\":\"02/Jan/2016:03:04:05 +0000\",\"referrer\":\"-\",\"user_id\":\"\"\x7d"
    _ rfl
  exact ⟨_, rfl,
    h.2 _ "referrer" (JsonValue.str "-") rfl rfl (Or.inr rfl) (by decide) (by decide)
      (by decide) (by decide) (by decide) (by decide),
    h.2 _ "user_id" (JsonValue.str "") rfl rfl (Or.inl rfl) (by decide) (by decide)
      (by decide) (by decide) (by decide) (by decide),
    by decide⟩

/-- C4 as stated fails: the decoded object has `host` = `"-"`, and the record
still has the field `host`, with the caller's host name. -/
theorem parseNginxAccessLine_keeps_overwritten_key :
    ∃ m r, jsonUnmarshal
        "\x7b\"host\":\"-\",\"request\":\"GET / HTTP/1.1\",\"timestamp\":\"02/Jan/2016:03:04:05 +0000\"\x7d"
        = Unmarshalled.object m ∧
      m.get "host" = some (JsonValue.str "-") ∧
      parseNginxAccessLine jsonUnmarshal "web1"
        "\x7b\"host\":\"-\",\"request\":\"GET / HTTP/1.1\",\"timestamp\":\"02/Jan/2016:03:04:05 +0000\"\x7d"
        = Outcome.ok r ∧
      r.get "host" = some (JsonValue.str "web1") :=
  ⟨_, _, rfl, by decide, rfl, by decide⟩

/-- C5: the error parser returns a record and a nil error on every host and
every raw line: no index into the split pieces is out of range and no type
assertion fails. -/
theorem parseNginxErrorLine_never_fails (now : Time) (host logLine : Str) :
    ∃ r, parseNginxErrorLine now host logLine = Outcome.ok r := by
  obtain ⟨_, r, _, hr, _⟩ := parseNginxErrorFields_spec now logLine
  exact ⟨_, parseNginxErrorLine_eq now host logLine r hr⟩

/-- C6 (as amended): when the header segment of the line is
`<date> [error] <tok1> <tok2> <rest>`, where the error grammar accepts `date`
as the instant `t`, `tok1` and `tok2` hold no blank and the marker
`" [error] "` does not occur again after the first one, the error parser
returns a record whose `message` is `rest` without double quotes, whose
`timestamp` is `t` in the form `YYYY-MM-DD HH:MM:SS` and whose `tableName` is
the bucket of `t`. -/
theorem parseNginxErrorLine_marked (now : Time) (host logLine date tok1 tok2 rest : Str)
    (t : Time) (hdate : Parse nginxErrorLayout date = some t)
    (h1 : ' ' ∉ tok1) (h2 : ' ' ∉ tok2)
    (hmark : Contains (tok1 ++ ' ' :: (tok2 ++ ' ' :: rest)) " [error] " = false)
    (hline : headerOf logLine
      = date ++ goString " [error] " ++ (tok1 ++ ' ' :: (tok2 ++ ' ' :: rest))) :
    ∃ r, parseNginxErrorLine now host logLine = Outcome.ok r ∧
      r.get "message" = some (JsonValue.str (rest.filter (fun c => c != '"'))) ∧
      r.get "timestamp" = some (JsonValue.str (Format t bigQueryTimeFormat)) ∧
      r.get "tableName" = some (JsonValue.str (tableNameFromTime t)) := by
  obtain ⟨hdr, r, hhdr, hr, _, _, _, _, hm, hts, htn⟩ := parseNginxErrorFields_spec now logLine
  have hsplit : Split (headerOf logLine) " [error] " = [date, tok1 ++ ' ' :: (tok2 ++ ' ' :: rest)] := by
    rw [hline]
    exact Split_pair ' ' '[' _ date _ (by decide) (nginxError_date_chars date t hdate)
      (Index_none_of_Contains _ _ hmark)
  have hthree : SplitN (tok1 ++ ' ' :: (tok2 ++ ' ' :: rest)) " " 3 = [tok1, tok2, rest] :=
    SplitN_three tok1 tok2 rest h1 h2
  rw [parseNginxErrorHeader_marked now _ _ _ _ _ _ _ hsplit hthree] at hhdr
  have hhdr := (Option.some.inj hhdr).symm
  have hrep : Replace rest "\"" "" = rest.filter (fun c => c != '"') := Replace_single '"' _
  refine ⟨_, parseNginxErrorLine_eq now host logLine r hr, ?_, ?_, ?_⟩
  · simp [hm, hhdr, hrep]
  · simp [hts, hhdr, parseNginxErrorTimestamp, hdate]
  · simp [htn, hhdr, parseNginxErrorTimestamp, hdate]

/-- C6 at the line `2016/01/02 03:04:05 [error] 1234#0: *1 "some error"`. -/
theorem parseNginxErrorLine_marked_witness :
    ∃ r, parseNginxErrorLine ⟨2020, 5, 6, 7, 8, 9, 0⟩ "web1"
        "2016/01/02 03:04:05 [error] 1234#0: *1 \"some error\"" = Outcome.ok r ∧
      r.get "message" = some (JsonValue.str "some error") ∧
      r.get "timestamp" = some (JsonValue.str "2016-01-02 03:04:05") ∧
      r.get "tableName" = some (JsonValue.str "logs_20160102") :=
  parseNginxErrorLine_marked ⟨2020, 5, 6, 7, 8, 9, 0⟩ "web1"
    "2016/01/02 03:04:05 [error] 1234#0: *1 \"some error\"" "2016/01/02 03:04:05" "1234#0:" "*1"
    "\"some error\"" ⟨2016, 1, 2, 3, 4, 5, 0⟩ (by decide) (by decide) (by decide) (by decide)
    (by decide)

/-- C6 as stated fails: the header
`2016/01/02 03:04:05 [error] a b c [error] d` has the stated form with
`<rest>` = `c [error] d`, and the record gets no `message`, no `timestamp` and
no `tableName`. -/
theorem parseNginxErrorLine_second_marker :
    Parse nginxErrorLayout "2016/01/02 03:04:05" = some ⟨2016, 1, 2, 3, 4, 5, 0⟩ ∧
    ∃ r, parseNginxErrorLine ⟨2020, 5, 6, 7, 8, 9, 0⟩ "web1"
        "2016/01/02 03:04:05 [error] a b c [error] d" = Outcome.ok r ∧
      r.get "message" = none ∧ r.get "timestamp" = none ∧ r.get "tableName" = none :=
  ⟨by decide, _, rfl, by decide, by decide, by decide⟩

/-- C7: when the header segment of the line (the text before the first `", "`)
does not contain `" [error] "`, the error parser returns a record whose
`message` is the header with every double quote removed, whose `timestamp` is
the current instant in the form `YYYY-MM-DD HH:MM:SS` and whose `tableName` is
the bucket of that same instant. -/
theorem parseNginxErrorLine_fallback (now : Time) (host logLine : Str)
    (h : Contains (headerOf logLine) " [error] " = false) :
    ∃ r, parseNginxErrorLine now host logLine = Outcome.ok r ∧
      r.get "message" = some (JsonValue.str ((headerOf logLine).filter (fun c => c != '"'))) ∧
      r.get "timestamp" = some (JsonValue.str (Format now bigQueryTimeFormat)) ∧
      r.get "tableName" = some (JsonValue.str (tableNameFromTime now)) := by
  obtain ⟨hdr, r, hhdr, hr, _, _, _, _, hm, hts, htn⟩ := parseNginxErrorFields_spec now logLine
  rw [parseNginxErrorHeader_fallback now _ _ h] at hhdr
  have hhdr := (Option.some.inj hhdr).symm
  have hrep : Replace (headerOf logLine) "\"" "" = (headerOf logLine).filter (fun c => c != '"') :=
    Replace_single '"' _
  refine ⟨_, parseNginxErrorLine_eq now host logLine r hr, ?_, ?_, ?_⟩
  · simp [hm, hhdr, hrep]
  · simp [hts, hhdr]
  · simp [htn, hhdr]

/-- C7 at the line `"plain message"` (quotes included), read on 2020-05-06 at
07:08:09. -/
theorem parseNginxErrorLine_fallback_witness :
    Contains (headerOf "\"plain message\"") " [error] " = false ∧
    ∃ r, parseNginxErrorLine ⟨2020, 5, 6, 7, 8, 9, 0⟩ "web1" "\"plain message\"" = Outcome.ok r ∧
      r.get "message" = some (JsonValue.str "plain message") ∧
      r.get "timestamp" = some (JsonValue.str "2020-05-06 07:08:09") ∧
      r.get "tableName" = some (JsonValue.str "logs_20200506") :=
  ⟨by decide, parseNginxErrorLine_fallback ⟨2020, 5, 6, 7, 8, 9, 0⟩ "web1" "\"plain message\""
    (by decide)⟩

/-- C8 (as amended): a clause is split at every `": "` and is recorded only
when that gives exactly two parts. So for every header `h` and every value `v`
that contains neither `", "` nor `": "`, the line `h + ", client: " + v` gives
a record whose `ip` is `v` without double quotes; likewise `host` gives
`domain` and `referrer` gives `referrer`; and on every line, a key that no
clause splits to (as its first of two parts) leaves its field unset. -/
theorem parseNginxErrorLine_clauses (now : Time) (host h v : Str)
    (hv1 : Contains v ", " = false) (hv2 : Contains v ": " = false) :
    (∃ r, parseNginxErrorLine now host (h ++ goString ", client: " ++ v) = Outcome.ok r ∧
      r.get "ip" = some (JsonValue.str (v.filter (fun c => c != '"')))) ∧
    (∃ r, parseNginxErrorLine now host (h ++ goString ", host: " ++ v) = Outcome.ok r ∧
      r.get "domain" = some (JsonValue.str (v.filter (fun c => c != '"')))) ∧
    (∃ r, parseNginxErrorLine now host (h ++ goString ", referrer: " ++ v) = Outcome.ok r ∧
      r.get "referrer" = some (JsonValue.str (v.filter (fun c => c != '"')))) ∧
    ∀ logLine : Str, ∃ r, parseNginxErrorLine now host logLine = Outcome.ok r ∧
      ((∀ clause ∈ clausesOf logLine, ∀ value, Split clause ": " ≠ ["client", value]) →
        r.get "ip" = none) ∧
      ((∀ clause ∈ clausesOf logLine, ∀ value, Split clause ": " ≠ ["host", value]) →
        r.get "domain" = none) ∧
      ((∀ clause ∈ clausesOf logLine, ∀ value, Split clause ": " ≠ ["referrer", value]) →
        r.get "referrer" = none) := by
  refine ⟨?_, ?_, ?_, ?_⟩
  · obtain ⟨_, r, _, hr, _, hip, _⟩ :=
      parseNginxErrorFields_spec now (h ++ goString ", client: " ++ v)
    refine ⟨_, parseNginxErrorLine_eq now host _ r hr, ?_⟩
    have hp := paramsOf_last h "client" v (by decide) (by decide) hv1 hv2
    have e : h ++ goString ", client: " ++ v
        = h ++ ',' :: ' ' :: (goString "client" ++ ':' :: ' ' :: v) := by
      rw [List.append_assoc]; rfl
    rw [e] at hip
    simp [hip, hp]
  · obtain ⟨_, r, _, hr, _, _, hdom, _⟩ :=
      parseNginxErrorFields_spec now (h ++ goString ", host: " ++ v)
    refine ⟨_, parseNginxErrorLine_eq now host _ r hr, ?_⟩
    have hp := paramsOf_last h "host" v (by decide) (by decide) hv1 hv2
    have e : h ++ goString ", host: " ++ v
        = h ++ ',' :: ' ' :: (goString "host" ++ ':' :: ' ' :: v) := by
      rw [List.append_assoc]; rfl
    rw [e] at hdom
    simp [hdom, hp]
  · obtain ⟨_, r, _, hr, _, _, _, href, _⟩ :=
      parseNginxErrorFields_spec now (h ++ goString ", referrer: " ++ v)
    refine ⟨_, parseNginxErrorLine_eq now host _ r hr, ?_⟩
    have hp := paramsOf_last h "referrer" v (by decide) (by decide) hv1 hv2
    have e : h ++ goString ", referrer: " ++ v
        = h ++ ',' :: ' ' :: (goString "referrer" ++ ':' :: ' ' :: v) := by
      rw [List.append_assoc]; rfl
    rw [e] at href
    simp [href, hp]
  · intro logLine
    obtain ⟨_, r, _, hr, _, hip, hdom, href, _⟩ := parseNginxErrorFields_spec now logLine
    refine ⟨_, parseNginxErrorLine_eq now host _ r hr, ?_, ?_, ?_⟩
    · intro hc
      simp [hip, paramsOf_get_none logLine "client" hc]
    · intro hc
      simp [hdom, paramsOf_get_none logLine "host" hc]
    · intro hc
      simp [href, paramsOf_get_none logLine "referrer" hc]

/-- C8 at the header `x` and the value `"1.2.3.4"` (quotes included). -/
theorem parseNginxErrorLine_clauses_witness :
    ∃ r, parseNginxErrorLine ⟨2020, 5, 6, 7, 8, 9, 0⟩ "web1" "x, client: \"1.2.3.4\""
        = Outcome.ok r ∧
      r.get "ip" = some (JsonValue.str "1.2.3.4") :=
  (parseNginxErrorLine_clauses ⟨2020, 5, 6, 7, 8, 9, 0⟩ "web1" "x" "\"1.2.3.4\"" (by decide)
    (by decide)).1

/-- C8 as stated fails: the value `a: b` holds no `", "`, and the line
`x, client: a: b` gives a record without `ip`, because the clause splits into
three parts. -/
theorem parseNginxErrorLine_clause_with_colon :
    Contains "a: b" ", " = false ∧
    Split "client: a: b" ": " = ["client", "a", "b"] ∧
    ∃ r, parseNginxErrorLine ⟨2020, 5, 6, 7, 8, 9, 0⟩ "web1" "x, client: a: b" = Outcome.ok r ∧
      r.get "ip" = none :=
  ⟨by decide, by decide, _, rfl, by decide⟩

/-- C9 (code defect): the empty object is a valid JSON object without a
`timestamp` field, and the rails parser does not return on it: the type
assertion on the missing field panics. -/
theorem parseRailsLine_panics_without_timestamp (host : Str) :
    (∃ m, jsonUnmarshal "\x7b\x7d" = Unmarshalled.object m ∧ m.get "timestamp" = none) ∧
    parseRailsLine jsonUnmarshal host "\x7b\x7d" = Outcome.panic :=
  ⟨⟨_, rfl, rfl⟩, rfl⟩

/-- C10 (as amended): a record the access parser or the error parser returns
does not contain the key `request`; a record the rails parser returns holds
under `request` what the decoded object holds there. -/
theorem parsers_request_field (unmarshal : Unmarshal) (now : Time) (host line : Str)
    (r : Record) :
    (parseNginxAccessLine unmarshal host line = Outcome.ok r → r.get "request" = none) ∧
    (parseNginxErrorLine now host line = Outcome.ok r → r.get "request" = none) ∧
    (parseRailsLine unmarshal host line = Outcome.ok r →
      ∀ m, unmarshal line = Unmarshalled.object m → r.get "request" = m.get "request") := by
  refine ⟨?_, ?_, ?_⟩
  · intro hok
    obtain ⟨m, req, ts, _, _, _, hrec⟩ := parseNginxAccessLine_ok unmarshal host line r hok
    rw [hrec, accessRecord_get, accessTimestamp_get_of_ne _ _ _ (by simp) (by simp)]
    simp
  · intro hok
    obtain ⟨_, r0, _, hr0, hreq, _⟩ := parseNginxErrorFields_spec now line
    rw [parseNginxErrorLine_eq now host line r0 hr0] at hok
    rw [← Outcome.ok.inj hok]
    simp [hreq]
  · intro hok m hu
    obtain ⟨m1, ts, hu1, _, hrec⟩ := parseRailsLine_ok unmarshal host line r hok
    have em : m1 = m := Unmarshalled.object.inj (hu1.symm.trans hu)
    rw [hrec, em]
    unfold railsRecord railsTableName
    split <;> simp

/-- C10 at an access-log line and an error-log line that carry a request. -/
theorem parsers_request_field_witness :
    (∃ r, parseNginxAccessLine jsonUnmarshal "web1"
        "\x7b\"request\":\"GET /a?b=1 HTTP/1.1\",\"timestamp\":\"02/Jan/2016:03:04:05 +0000\"\x7d"
        = Outcome.ok r ∧ r.get "request" = none) ∧
    (∃ r, parseNginxErrorLine ⟨2020, 5, 6, 7, 8, 9, 0⟩ "web1"
        "2016/01/02 03:04:05 [error] 1#0: *1 failed, request: \"GET / HTTP/1.1\""
        = Outcome.ok r ∧ r.get "request" = none ∧ r.get "method" = some (JsonValue.str "GET")) := by
  refine ⟨⟨_, rfl, ?_⟩, ⟨_, rfl, ?_, by decide⟩⟩
  · exact (parsers_request_field jsonUnmarshal ⟨2020, 5, 6, 7, 8, 9, 0⟩ "web1"
      "\x7b\"request\":\"GET /a?b=1 HTTP/1.1\",\"timestamp\":\"02/Jan/2016:03:04:05 +0000\"\x7d"
      _).1 rfl
  · exact (parsers_request_field jsonUnmarshal ⟨2020, 5, 6, 7, 8, 9, 0⟩ "web1"
      "2016/01/02 03:04:05 [error] 1#0: *1 failed, request: \"GET / HTTP/1.1\""
      _).2.1 rfl

/-- C10 as stated fails for the rails parser: it returns the decoded `request`
field as it is. -/
theorem parseRailsLine_keeps_request :
    ∃ r, parseRailsLine jsonUnmarshal "web1"
        "\x7b\"request\":\"GET / HTTP/1.1\",\"timestamp\":\"2016-01-02 03:04:05\"\x7d"
        = Outcome.ok r ∧
      r.get "request" = some (JsonValue.str "GET / HTTP/1.1") :=
  ⟨_, rfl, by decide⟩

/-- C11 (as amended): a record the error parser or the rails parser returns
holds the caller's host under `host`, whatever the host string, and the
parser's name under `log_type`. A record the access parser returns holds
`nginx-access` under `log_type`, and the caller's host under `host` unless the
host is `""` or `"-"`, in which case `host` is absent. -/
theorem parsers_host_log_type (unmarshal : Unmarshal) (now : Time) (host line : Str)
    (r : Record) :
    (parseNginxAccessLine unmarshal host line = Outcome.ok r →
      r.get "log_type" = some (JsonValue.str "nginx-access") ∧
      r.get "host" = (if host = "-" ∨ host = "" then none else some (JsonValue.str host))) ∧
    (parseNginxErrorLine now host line = Outcome.ok r →
      r.get "log_type" = some (JsonValue.str "nginx-error") ∧
      r.get "host" = some (JsonValue.str host)) ∧
    (parseRailsLine unmarshal host line = Outcome.ok r →
      r.get "log_type" = some (JsonValue.str "rails") ∧
      r.get "host" = some (JsonValue.str host)) := by
  refine ⟨?_, ?_, ?_⟩
  · intro hok
    obtain ⟨m, req, ts, _, _, _, hrec⟩ := parseNginxAccessLine_ok unmarshal host line r hok
    subst hrec
    constructor
    · rw [accessRecord_get, accessTimestamp_get_of_ne _ _ _ (by simp) (by simp),
        splitRequest_get_of_ne _ _ _ (by simp) (by simp) (by simp) (by simp)]
      simp only [get_set, if_true, filter_str]
      rfl
    · rw [accessRecord_get, accessTimestamp_get_of_ne _ _ _ (by simp) (by simp),
        splitRequest_get_of_ne _ _ _ (by simp) (by simp) (by simp) (by simp)]
      simp [filter_str]
  · intro hok
    obtain ⟨_, r0, _, hr0, _⟩ := parseNginxErrorFields_spec now line
    rw [parseNginxErrorLine_eq now host line r0 hr0] at hok
    rw [← Outcome.ok.inj hok]
    simp
  · intro hok
    obtain ⟨m, ts, _, _, hrec⟩ := parseRailsLine_ok unmarshal host line r hok
    subst hrec
    unfold railsRecord railsTableName
    split <;> simp

/-- C11 at the host `web1`, for a line of each format. -/
theorem parsers_host_log_type_witness :
    (∃ r, parseNginxAccessLine jsonUnmarshal "web1"
        "\x7b\"request\":\"GET / HTTP/1.1\",\"timestamp\":\"02/Jan/2016:03:04:05 +0000\"\x7d"
        = Outcome.ok r ∧
      r.get "log_type" = some (JsonValue.str "nginx-access") ∧
      r.get "host" = some (JsonValue.str "web1")) ∧
    (∃ r, parseRailsLine jsonUnmarshal "" "\x7b\"timestamp\":\"2016-01-02 03:04:05\"\x7d"
        = Outcome.ok r ∧
      r.get "log_type" = some (JsonValue.str "rails") ∧
      r.get "host" = some (JsonValue.str "")) := by
  refine ⟨⟨_, rfl, ?_⟩, ⟨_, rfl, ?_⟩⟩
  · exact (parsers_host_log_type jsonUnmarshal ⟨2020, 5, 6, 7, 8, 9, 0⟩ "web1"
      "\x7b\"request\":\"GET / HTTP/1.1\",\"timestamp\":\"02/Jan/2016:03:04:05 +0000\"\x7d"
      _).1 rfl
  · exact (parsers_host_log_type jsonUnmarshal ⟨2020, 5, 6, 7, 8, 9, 0⟩ ""
      "\x7b\"timestamp\":\"2016-01-02 03:04:05\"\x7d" _).2.2 rfl

/-- C11 as stated fails: with the host `-` the access parser returns a record
without the field `host`, because its closing loop removes every field that
holds `"-"`. -/
theorem parseNginxAccessLine_dash_host :
    ∃ r, parseNginxAccessLine jsonUnmarshal "-"
        "\x7b\"request\":\"GET / HTTP/1.1\",\"timestamp\":\"02/Jan/2016:03:04:05 +0000\"\x7d"
        = Outcome.ok r ∧
      r.get "host" = none ∧ r.get "log_type" = some (JsonValue.str "nginx-access") :=
  ⟨_, rfl, by decide, by decide⟩

/-- C12 (as amended): in a record the error parser returns (the current instant
being a valid date with a four-digit year), and in a record the access or the
rails parser returns when the decoded object has no `tableName` key or its
`timestamp` is accepted by the parser's grammar, a `tableName` comes with a
`timestamp` that the canonical grammar reads as an instant `t`, and `tableName`
is the bucket of `t`. -/
theorem parsers_tableName_agrees (unmarshal : Unmarshal) (now : Time) (host line : Str)
    (r : Record) (v : JsonValue) (hv : r.get "tableName" = some v) :
    (parseNginxErrorLine now host line = Outcome.ok r → now.Valid →
      ∃ s t, r.get "timestamp" = some (JsonValue.str s) ∧
        Parse bigQueryTimeFormat s = some t ∧ v = JsonValue.str (tableNameFromTime t)) ∧
    (parseNginxAccessLine unmarshal host line = Outcome.ok r →
      ∀ m ts, unmarshal line = Unmarshalled.object m →
        m.get "timestamp" = some (JsonValue.str ts) →
        m.get "tableName" = none ∨ Parse nginxAccessLayout ts ≠ none →
        ∃ s t, r.get "timestamp" = some (JsonValue.str s) ∧
          Parse bigQueryTimeFormat s = some t ∧ v = JsonValue.str (tableNameFromTime t)) ∧
    (parseRailsLine unmarshal host line = Outcome.ok r →
      ∀ m ts, unmarshal line = Unmarshalled.object m →
        m.get "timestamp" = some (JsonValue.str ts) →
        m.get "tableName" = none ∨ Parse bigQueryTimeFormat ts ≠ none →
        ∃ s t, r.get "timestamp" = some (JsonValue.str s) ∧
          Parse bigQueryTimeFormat s = some t ∧ v = JsonValue.str (tableNameFromTime t)) := by
  refine ⟨?_, ?_, ?_⟩
  · intro hok hnow
    rcases parseNginxErrorLine_stamp now host line r hok with ⟨_, e2⟩ | ⟨t, ht, e1, e2⟩
    · rw [e2] at hv
      cases hv
    · have htv : t.Valid := by
        rcases ht with e | e
        · exact e ▸ hnow
        · exact e
      refine ⟨_, _, e1, Parse_Format t htv, ?_⟩
      rw [e2] at hv
      rw [tableNameFromTime_nsec]
      exact (Option.some.inj hv).symm
  · intro hok m ts hu hts hcond
    obtain ⟨m1, req, ts1, hu1, _, hts1, hrec⟩ := parseNginxAccessLine_ok unmarshal host line r hok
    have em : m1 = m := Unmarshalled.object.inj (hu1.symm.trans hu)
    subst em
    have et : ts1 = ts := by
      have := hts1.symm.trans hts
      simpa using this
    subst et hrec
    cases hp : Parse nginxAccessLayout ts1 with
    | some t =>
      obtain ⟨e1, e2⟩ := accessRecord_parsed host m1 req ts1 t hp
      refine ⟨_, _, e1, Parse_Format t (Parse_valid _ _ _ hp), ?_⟩
      rw [e2] at hv
      rw [tableNameFromTime_nsec]
      exact (Option.some.inj hv).symm
    | none =>
      rcases hcond with hnone | hsome
      · rw [accessRecord_unparsed host m1 req ts1 _ hp (Or.inr rfl), hnone] at hv
        simp [Option.filter] at hv
      · exact absurd hp hsome
  · intro hok m ts hu hts hcond
    obtain ⟨m1, ts1, hu1, hts1, hrec⟩ := parseRailsLine_ok unmarshal host line r hok
    have em : m1 = m := Unmarshalled.object.inj (hu1.symm.trans hu)
    subst em
    have et : ts1 = ts := by
      have := hts1.symm.trans hts
      simpa using this
    subst et hrec
    have hkeep : (railsRecord host m1 ts1).get "timestamp" = some (JsonValue.str ts1) := by
      rw [railsRecord_get_of_ne _ _ _ _ (by simp) (by simp) (by simp)]
      exact hts1
    rw [railsRecord_tableName] at hv
    cases hp : Parse bigQueryTimeFormat ts1 with
    | some t =>
      rw [hp] at hv
      exact ⟨ts1, t, hkeep, hp, (Option.some.inj hv).symm⟩
    | none =>
      rw [hp] at hv
      rcases hcond with hnone | hsome
      · simp only [] at hv
        rw [hnone] at hv
        cases hv
      · exact absurd hp hsome

/-- C12 at an error-log line, read on 2020-05-06. -/
theorem parsers_tableName_agrees_witness :
    ∃ r s t, parseNginxErrorLine ⟨2020, 5, 6, 7, 8, 9, 0⟩ "web1"
        "2016/01/02 03:04:05 [error] 1234#0: *1 \"some error\"" = Outcome.ok r ∧
      r.get "tableName" = some (JsonValue.str "logs_20160102") ∧
      r.get "timestamp" = some (JsonValue.str s) ∧
      Parse bigQueryTimeFormat s = some t ∧
      JsonValue.str "logs_20160102" = JsonValue.str (tableNameFromTime t) := by
  have hr : ∃ r, parseNginxErrorLine ⟨2020, 5, 6, 7, 8, 9, 0⟩ "web1"
      "2016/01/02 03:04:05 [error] 1234#0: *1 \"some error\"" = Outcome.ok r ∧
      r.get "tableName" = some (JsonValue.str "logs_20160102") := ⟨_, rfl, by decide⟩
  obtain ⟨r, hok, htn⟩ := hr
  obtain ⟨s, t, h1, h2, h3⟩ := (parsers_tableName_agrees jsonUnmarshal ⟨2020, 5, 6, 7, 8, 9, 0⟩
    "web1" "2016/01/02 03:04:05 [error] 1234#0: *1 \"some error\"" r _ htn).1 hok (by decide)
  exact ⟨r, s, t, hok, htn, h1, h2, h3⟩

/-- C12 as stated fails: the decoded object carries `tableName` and a
`timestamp` the access grammar does not accept; the record keeps both, and the
canonical grammar reads the `timestamp` as a day with another bucket. -/
theorem parseNginxAccessLine_decoded_tableName :
    (∃ r, parseNginxAccessLine jsonUnmarshal "web1"
        "\x7b\"request\":\"GET / HTTP/1.1\",\"timestamp\":\"2016-01-02 03:04:05\",\"tableName\":\"logs_19990101\"\x7d"
        = Outcome.ok r ∧
      r.get "timestamp" = some (JsonValue.str "2016-01-02 03:04:05") ∧
      r.get "tableName" = some (JsonValue.str "logs_19990101")) ∧
    (∃ t, Parse bigQueryTimeFormat "2016-01-02 03:04:05" = some t ∧
      tableNameFromTime t = goString "logs_20160102") :=
  ⟨⟨_, rfl, by decide, by decide⟩, ⟨_, rfl, by decide⟩⟩

/-- C13 (as amended): in a record the error parser returns (the current instant
being a valid date with a four-digit year), `timestamp`, when present, is a
string of the canonical form. In a record the access parser returns it is of
the canonical form when the access grammar accepts the decoded `timestamp`,
and otherwise it is the decoded `timestamp` as it was (absent when that is
`""` or `"-"`). The rails parser returns the decoded `timestamp` as it was. -/
theorem parsers_timestamp_form (unmarshal : Unmarshal) (now : Time) (host line : Str)
    (r : Record) :
    (parseNginxErrorLine now host line = Outcome.ok r → now.Valid →
      ∀ v, r.get "timestamp" = some v → ∃ s, v = JsonValue.str s ∧ isCanonical s = true) ∧
    (parseNginxAccessLine unmarshal host line = Outcome.ok r →
      ∀ m ts, unmarshal line = Unmarshalled.object m →
        m.get "timestamp" = some (JsonValue.str ts) →
        (Parse nginxAccessLayout ts ≠ none →
          ∃ s, r.get "timestamp" = some (JsonValue.str s) ∧ isCanonical s = true) ∧
        (Parse nginxAccessLayout ts = none →
          r.get "timestamp" = (if ts = "-" ∨ ts = "" then none else some (JsonValue.str ts)))) ∧
    (parseRailsLine unmarshal host line = Outcome.ok r →
      ∀ m, unmarshal line = Unmarshalled.object m → r.get "timestamp" = m.get "timestamp") := by
  refine ⟨?_, ?_, ?_⟩
  · intro hok hnow v hv
    rcases parseNginxErrorLine_stamp now host line r hok with ⟨e1, _⟩ | ⟨t, ht, e1, _⟩
    · rw [e1] at hv
      cases hv
    · have htv : t.Valid := by
        rcases ht with e | e
        · exact e ▸ hnow
        · exact e
      rw [e1] at hv
      exact ⟨_, (Option.some.inj hv).symm, Format_canonical t htv⟩
  · intro hok m ts hu hts
    obtain ⟨m1, req, ts1, hu1, _, hts1, hrec⟩ := parseNginxAccessLine_ok unmarshal host line r hok
    have em : m1 = m := Unmarshalled.object.inj (hu1.symm.trans hu)
    subst em
    have et : ts1 = ts := by
      have := hts1.symm.trans hts
      simpa using this
    subst et hrec
    constructor
    · intro hp
      cases hp1 : Parse nginxAccessLayout ts1 with
      | none => exact absurd hp1 hp
      | some t =>
        exact ⟨_, (accessRecord_parsed host m1 req ts1 t hp1).1,
          Format_canonical t (Parse_valid _ _ _ hp1)⟩
    · intro hp
      rw [accessRecord_unparsed host m1 req ts1 _ hp (Or.inl rfl), hts1, filter_str]
  · intro hok m hu
    obtain ⟨m1, ts1, hu1, _, hrec⟩ := parseRailsLine_ok unmarshal host line r hok
    have em : m1 = m := Unmarshalled.object.inj (hu1.symm.trans hu)
    subst em hrec
    exact railsRecord_get_of_ne _ _ _ _ (by simp) (by simp) (by simp)

/-- C13 at the access-log text `02/Jan/2016:03:04:05 +0000`. -/
theorem parsers_timestamp_form_witness :
    ∃ r s, parseNginxAccessLine jsonUnmarshal "web1"
        "\x7b\"request\":\"GET / HTTP/1.1\",\"timestamp\":\"02/Jan/2016:03:04:05 +0000\"\x7d"
        = Outcome.ok r ∧
      r.get "timestamp" = some (JsonValue.str s) ∧ isCanonical s = true := by
  obtain ⟨s, h1, h2⟩ := ((parsers_timestamp_form jsonUnmarshal ⟨2020, 5, 6, 7, 8, 9, 0⟩ "web1"
    "\x7b\"request\":\"GET / HTTP/1.1\",\"timestamp\":\"02/Jan/2016:03:04:05 +0000\"\x7d"
    _).2.1 rfl _ "02/Jan/2016:03:04:05 +0000" rfl (by decide)).1 (by decide)
  exact ⟨_, s, rfl, h1, h2⟩

/-- C13 as stated fails: the access grammar does not accept `yesterday`, and the
record keeps it as its `timestamp`; the rails parser keeps a `timestamp` in the
access-log form. -/
theorem parsers_keep_foreign_timestamp :
    (∃ r, parseNginxAccessLine jsonUnmarshal "web1"
        "\x7b\"request\":\"GET / HTTP/1.1\",\"timestamp\":\"yesterday\"\x7d" = Outcome.ok r ∧
      r.get "timestamp" = some (JsonValue.str "yesterday")) ∧
    isCanonical "yesterday" = false ∧
    (∃ r, parseRailsLine jsonUnmarshal "web1"
        "\x7b\"timestamp\":\"02/Jan/2016:03:04:05 +0000\"\x7d" = Outcome.ok r ∧
      r.get "timestamp" = some (JsonValue.str "02/Jan/2016:03:04:05 +0000")) :=
  ⟨⟨_, rfl, by decide⟩, by decide, ⟨_, rfl, by decide⟩⟩

/-- C14: the bucket of a calendar date (month at most 12, day at most 31) with
a year up to 9999 is `logs_` followed by the eight decimal digits `YYYYMMDD`
of the date, and two dates have the same bucket exactly when they have the same
year, month and day. -/
theorem tableNameFromTime_bucket (t1 t2 : Time) (hm1 : t1.month ≤ 12) (hd1 : t1.day ≤ 31)
    (hm2 : t2.month ≤ 12) (hd2 : t2.day ≤ 31) :
    (t1.year ≤ 9999 →
      tableNameFromTime t1
        = goString "logs_" ++ [digitChar (t1.year / 1000), digitChar (t1.year / 100 % 10),
            digitChar (t1.year / 10 % 10), digitChar (t1.year % 10), digitChar (t1.month / 10),
            digitChar (t1.month % 10), digitChar (t1.day / 10), digitChar (t1.day % 10)]) ∧
    (tableNameFromTime t1 = tableNameFromTime t2 ↔
      t1.year = t2.year ∧ t1.month = t2.month ∧ t1.day = t2.day) := by
  constructor
  · intro hy
    rw [tableNameFromTime_eq, appendInt_four _ (by omega), appendInt_two _ (by omega),
      appendInt_two _ (by omega)]
    rfl
  · exact tableNameFromTime_inj t1 t2 (by omega) (by omega) (by omega) (by omega)

/-- C14 at 2016-01-02 03:04:05 and 2016-01-02 23:59:59. -/
theorem tableNameFromTime_bucket_witness :
    tableNameFromTime ⟨2016, 1, 2, 3, 4, 5, 0⟩ = goString "logs_20160102" ∧
    tableNameFromTime ⟨2016, 1, 2, 3, 4, 5, 0⟩ = tableNameFromTime ⟨2016, 1, 2, 23, 59, 59, 0⟩ :=
  ⟨(tableNameFromTime_bucket ⟨2016, 1, 2, 3, 4, 5, 0⟩ ⟨2016, 1, 2, 23, 59, 59, 0⟩ (by decide)
      (by decide) (by decide) (by decide)).1 (by decide),
    (tableNameFromTime_bucket ⟨2016, 1, 2, 3, 4, 5, 0⟩ ⟨2016, 1, 2, 23, 59, 59, 0⟩ (by decide)
      (by decide) (by decide) (by decide)).2.2 ⟨rfl, rfl, rfl⟩⟩

/-- C15: when the access grammar (or the error grammar) reads the source text
`raw` as the instant `t`, the normaliser sets `timestamp` to the canonical text
of `t` and `tableName` to the bucket of `t`; the canonical grammar reads that
text back as an instant with the same bucket, and the rails entry point leaves
the normalised record as it is. -/
theorem normalizers_round_trip (raw : Str) (t : Time) (lineData : Record) :
    (Parse nginxAccessLayout raw = some t →
      lineData.get "timestamp" = some (JsonValue.str raw) →
      ∃ r, parseNginxAccessTimestamp lineData = some r ∧
        r.get "timestamp" = some (JsonValue.str (Format t bigQueryTimeFormat)) ∧
        r.get "tableName" = some (JsonValue.str (tableNameFromTime t)) ∧
        isCanonical (Format t bigQueryTimeFormat) = true ∧
        (∃ t1, Parse bigQueryTimeFormat (Format t bigQueryTimeFormat) = some t1 ∧
          tableNameFromTime t1 = tableNameFromTime t) ∧
        parseTableNameForRails r = some r) ∧
    (Parse nginxErrorLayout raw = some t →
      (parseNginxErrorTimestamp raw lineData).get "timestamp"
        = some (JsonValue.str (Format t bigQueryTimeFormat)) ∧
      (parseNginxErrorTimestamp raw lineData).get "tableName"
        = some (JsonValue.str (tableNameFromTime t)) ∧
      isCanonical (Format t bigQueryTimeFormat) = true ∧
      (∃ t1, Parse bigQueryTimeFormat (Format t bigQueryTimeFormat) = some t1 ∧
        tableNameFromTime t1 = tableNameFromTime t) ∧
      parseTableNameForRails (parseNginxErrorTimestamp raw lineData)
        = some (parseNginxErrorTimestamp raw lineData)) := by
  constructor
  · intro hp hts
    have hv := Parse_valid _ _ _ hp
    have h1 : (accessTimestamp raw lineData).get "timestamp"
        = some (JsonValue.str (Format t bigQueryTimeFormat)) := by
      simp [accessTimestamp, hp]
    have h2 : (accessTimestamp raw lineData).get "tableName"
        = some (JsonValue.str (tableNameFromTime t)) := by
      simp [accessTimestamp, hp]
    exact ⟨_, parseNginxAccessTimestamp_eq lineData raw hts, h1, h2, Format_canonical t hv,
      ⟨_, Parse_Format t hv, tableNameFromTime_nsec t 0⟩,
      parseTableNameForRails_normalized _ t hv h1 h2⟩
  · intro hp
    have hv := Parse_valid _ _ _ hp
    have h1 : (parseNginxErrorTimestamp raw lineData).get "timestamp"
        = some (JsonValue.str (Format t bigQueryTimeFormat)) := by
      simp [parseNginxErrorTimestamp, hp]
    have h2 : (parseNginxErrorTimestamp raw lineData).get "tableName"
        = some (JsonValue.str (tableNameFromTime t)) := by
      simp [parseNginxErrorTimestamp, hp]
    exact ⟨h1, h2, Format_canonical t hv, ⟨_, Parse_Format t hv, tableNameFromTime_nsec t 0⟩,
      parseTableNameForRails_normalized _ t hv h1 h2⟩

/-- C15 at the access-log text `02/Jan/2016:03:04:05 +0000` and the error-log
text `2016/01/02 03:04:05`. -/
theorem normalizers_round_trip_witness :
    (∃ r, parseNginxAccessTimestamp
        (GoMap.empty.set "timestamp" (JsonValue.str "02/Jan/2016:03:04:05 +0000")) = some r ∧
      r.get "timestamp" = some (JsonValue.str "2016-01-02 03:04:05") ∧
      r.get "tableName" = some (JsonValue.str "logs_20160102") ∧
      parseTableNameForRails r = some r) ∧
    (parseNginxErrorTimestamp "2016/01/02 03:04:05" GoMap.empty).get "timestamp"
      = some (JsonValue.str "2016-01-02 03:04:05") := by
  have h := normalizers_round_trip "02/Jan/2016:03:04:05 +0000" ⟨2016, 1, 2, 3, 4, 5, 0⟩
    (GoMap.empty.set "timestamp" (JsonValue.str "02/Jan/2016:03:04:05 +0000"))
  have g := normalizers_round_trip "2016/01/02 03:04:05" ⟨2016, 1, 2, 3, 4, 5, 0⟩ GoMap.empty
  obtain ⟨r, hr, h1, h2, _, _, h5⟩ := h.1 (by decide) (by decide)
  exact ⟨⟨r, hr, h1, h2, h5⟩, (g.2 (by decide)).1⟩

/-- C16 (as amended): the row `stream` submits has `service` equal to the
configured name and every field of the record other than `service` and
`tableName` unchanged; when the record's `tableName` is a string, that string
is the target partition and the row does not contain `tableName`; when the
record has no `tableName`, or one that is not a string, the target partition is
the bucket of the current instant and the row holds under `tableName` what the
record holds: a `tableName` that is not a string stays in the row, and a record
without `tableName` gives a row without it. -/
theorem stream_row (config : logstalkerConfig) (insertID : Str) (now : Time) (r : Record) :
    (stream config insertID now r).json.get "service"
        = some (JsonValue.str config.ServiceName) ∧
    (∀ s, r.get "tableName" = some (JsonValue.str s) →
      (stream config insertID now r).tableId = s ∧
      (stream config insertID now r).json.get "tableName" = none) ∧
    ((∀ s, r.get "tableName" ≠ some (JsonValue.str s)) →
      (stream config insertID now r).tableId = tableNameFromTime now ∧
      (stream config insertID now r).json.get "tableName" = r.get "tableName") ∧
    (r.get "tableName" = none → (stream config insertID now r).json.get "tableName" = none) ∧
    (∀ k : Str, k ≠ "service" → k ≠ "tableName" →
      (stream config insertID now r).json.get k = r.get k) ∧
    (stream config insertID now r).insertId = insertID ∧
    (stream config insertID now r).projectId = config.ProjectID ∧
    (stream config insertID now r).datasetId = config.DatasetID := by
  have hget : (r.set "service" (JsonValue.str config.ServiceName)).get "tableName"
      = r.get "tableName" := by simp
  rcases string_or_not (r.get "tableName") with ⟨s, hs⟩ | hs
  · have hst : stream config insertID now r
        = ⟨config.ProjectID, config.DatasetID, s, insertID,
            (r.set "service" (JsonValue.str config.ServiceName)).delete "tableName"⟩ := by
      unfold stream
      simp only [hget, hs]
    rw [hst]
    refine ⟨by simp, ?_, ?_, ?_, ?_, rfl, rfl, rfl⟩
    · intro s1 hs1
      have : s1 = s := by
        have := hs1.symm.trans hs
        simpa using this
      exact ⟨this.symm, by simp⟩
    · intro hn
      exact absurd hs (hn s)
    · intro hn
      rw [hn] at hs
      cases hs
    · intro k h1 h2
      simp [h1, h2]
  · have hst : stream config insertID now r
        = ⟨config.ProjectID, config.DatasetID, tableNameFromTime now, insertID,
            r.set "service" (JsonValue.str config.ServiceName)⟩ := by
      unfold stream
      simp only [hget]
    rw [hst]
    refine ⟨by simp, ?_, ?_, ?_, ?_, rfl, rfl, rfl⟩
    · intro s1 hs1
      exact absurd hs1 (hs s1)
    · intro _
      exact ⟨rfl, by simp⟩
    · intro hn
      simp [hn]
    · intro k h1 h2
      simp [h1, h2]

/-- C16 at a record with `tableName` = `logs_20160102`, and at a record whose
`tableName` is the number 5, read on 2020-05-06. -/
theorem stream_row_witness :
    (stream ⟨"", "", "nginx", "", "", "project", "logs"⟩ "id-1" ⟨2020, 5, 6, 7, 8, 9, 0⟩
      ((GoMap.empty.set "path" (JsonValue.str "/a")).set "tableName"
        (JsonValue.str "logs_20160102"))).tableId = goString "logs_20160102" ∧
    (stream ⟨"", "", "nginx", "", "", "project", "logs"⟩ "id-1" ⟨2020, 5, 6, 7, 8, 9, 0⟩
      ((GoMap.empty.set "path" (JsonValue.str "/a")).set "tableName"
        (JsonValue.str "logs_20160102"))).json.get "tableName" = none ∧
    (stream ⟨"", "", "nginx", "", "", "project", "logs"⟩ "id-1" ⟨2020, 5, 6, 7, 8, 9, 0⟩
      ((GoMap.empty.set "path" (JsonValue.str "/a")).set "tableName"
        (JsonValue.num "5"))).tableId = tableNameFromTime ⟨2020, 5, 6, 7, 8, 9, 0⟩ ∧
    (stream ⟨"", "", "nginx", "", "", "project", "logs"⟩ "id-1" ⟨2020, 5, 6, 7, 8, 9, 0⟩
      ((GoMap.empty.set "path" (JsonValue.str "/a")).set "tableName"
        (JsonValue.num "5"))).json.get "tableName"
      = ((GoMap.empty.set "path" (JsonValue.str "/a")).set "tableName"
        (JsonValue.num "5")).get "tableName" :=
  ⟨((stream_row ⟨"", "", "nginx", "", "", "project", "logs"⟩ "id-1" ⟨2020, 5, 6, 7, 8, 9, 0⟩
      ((GoMap.empty.set "path" (JsonValue.str "/a")).set "tableName"
        (JsonValue.str "logs_20160102"))).2.1 "logs_20160102" (by decide)).1,
    ((stream_row ⟨"", "", "nginx", "", "", "project", "logs"⟩ "id-1" ⟨2020, 5, 6, 7, 8, 9, 0⟩
      ((GoMap.empty.set "path" (JsonValue.str "/a")).set "tableName"
        (JsonValue.str "logs_20160102"))).2.1 "logs_20160102" (by decide)).2,
    ((stream_row ⟨"", "", "nginx", "", "", "project", "logs"⟩ "id-1" ⟨2020, 5, 6, 7, 8, 9, 0⟩
      ((GoMap.empty.set "path" (JsonValue.str "/a")).set "tableName"
        (JsonValue.num "5"))).2.2.1 (by simp)).1,
    ((stream_row ⟨"", "", "nginx", "", "", "project", "logs"⟩ "id-1" ⟨2020, 5, 6, 7, 8, 9, 0⟩
      ((GoMap.empty.set "path" (JsonValue.str "/a")).set "tableName"
        (JsonValue.num "5"))).2.2.1 (by simp)).2⟩

/-- C16 as stated fails: the rails parser returns the decoded `tableName` 5, a
number; `stream` then targets the bucket of the current instant, not the value
of `tableName`, and the row it submits still contains `tableName`. -/
theorem stream_keeps_number_tableName :
    ∃ r, parseRailsLine jsonUnmarshal "web1"
        "\x7b\"timestamp\":\"none\",\"tableName\":5\x7d" = Outcome.ok r ∧
      r.get "tableName" = some (JsonValue.num "5") ∧
      (stream ⟨"", "", "nginx", "", "", "project", "logs"⟩ "id-1" ⟨2020, 5, 6, 7, 8, 9, 0⟩
        r).tableId = goString "logs_20200506" ∧
      (stream ⟨"", "", "nginx", "", "", "project", "logs"⟩ "id-1" ⟨2020, 5, 6, 7, 8, 9, 0⟩
        r).json.get "tableName" = some (JsonValue.num "5") :=
  ⟨_, rfl, by decide, by decide, by decide⟩

/-- C17 (code defect): the provisioner makes five calls, in order, for the
buckets of the instants `t`, `t + 24h`, ..., `t + 96h`. These are not always
five consecutive days: in New York, where the clock is set back one hour on
2016-11-06 at 06:00 UTC, a run at 00:30 local time on that day (04:30 UTC)
requests the bucket of 2016-11-06 twice and none for 2016-11-10; at the same
instant in UTC the five buckets are those of 2016-11-06 to 2016-11-10. -/
theorem createUpcomingDaysTables_calls (config : logstalkerConfig) :
    (∀ today : Instant,
      (createUpcomingDaysTables config today).map (fun call => call.tableId)
        = [tableNameFromTime today.civil, tableNameFromTime (today.Add 86400).civil,
            tableNameFromTime (today.Add 172800).civil,
            tableNameFromTime (today.Add 259200).civil,
            tableNameFromTime (today.Add 345600).civil]) ∧
    (Instant.civil ⟨1478406600, 0, fun u => if u < 1478412000 then -14400 else -18000⟩
        = ⟨2016, 11, 6, 0, 30, 0, 0⟩ ∧
      (createUpcomingDaysTables config
          ⟨1478406600, 0, fun u => if u < 1478412000 then -14400 else -18000⟩).map
          (fun call => call.tableId)
        = [goString "logs_20161106", goString "logs_20161106", goString "logs_20161107",
            goString "logs_20161108", goString "logs_20161109"]) ∧
    (createUpcomingDaysTables config ⟨1478406600, 0, fun _ => 0⟩).map (fun call => call.tableId)
      = [goString "logs_20161106", goString "logs_20161107", goString "logs_20161108",
          goString "logs_20161109", goString "logs_20161110"] := by
  refine ⟨?_, ⟨?_, ?_⟩, ?_⟩
  · intro today
    have h0 : today.Add (3600 * 24 * ((0 : Nat) : Int)) = today := by
      simp [Instant.Add]
    simp only [createUpcomingDaysTables, createTable, List.range, List.range.loop, List.map]
    rw [h0]
    rfl
  · decide
  · simp only [createUpcomingDaysTables, createTable, List.range, List.range.loop, List.map]
    decide
  · simp only [createUpcomingDaysTables, createTable, List.range, List.range.loop, List.map]
    decide

/-- C18: the registry resolves exactly the names `nginx-access`, `nginx-error`
and `rails`, to the access, the error and the rails parser; for every other
name it returns the error and no parser. -/
theorem parsingFunctionForType_resolves (name : Str) :
    (name = "nginx-access" →
      parsingFunctionForType name
        = Except.ok (fun unmarshal _ => parseNginxAccessLine unmarshal)) ∧
    (name = "nginx-error" →
      parsingFunctionForType name = Except.ok (fun _ now => parseNginxErrorLine now)) ∧
    (name = "rails" →
      parsingFunctionForType name = Except.ok (fun unmarshal _ => parseRailsLine unmarshal)) ∧
    (name ≠ "nginx-access" → name ≠ "nginx-error" → name ≠ "rails" →
      parsingFunctionForType name = Except.error (goString "Parser type not supported.")) ∧
    ((∃ fn, parsingFunctionForType name = Except.ok fn) ↔
      name = "nginx-access" ∨ name = "nginx-error" ∨ name = "rails") := by
  have h1 : name = "nginx-access" → parsingFunctionForType name
      = Except.ok (fun unmarshal _ => parseNginxAccessLine unmarshal) := by
    intro e
    subst e
    rfl
  have h2 : name = "nginx-error" → parsingFunctionForType name
      = Except.ok (fun _ now => parseNginxErrorLine now) := by
    intro e
    subst e
    rfl
  have h3 : name = "rails" → parsingFunctionForType name
      = Except.ok (fun unmarshal _ => parseRailsLine unmarshal) := by
    intro e
    subst e
    rfl
  have h4 : name ≠ "nginx-access" → name ≠ "nginx-error" → name ≠ "rails" →
      parsingFunctionForType name = Except.error (goString "Parser type not supported.") := by
    intro n1 n2 n3
    simp [parsingFunctionForType, n1, n2, n3]
  refine ⟨h1, h2, h3, h4, ?_⟩
  constructor
  · rintro ⟨fn, hfn⟩
    by_cases n1 : name = "nginx-access"
    · exact Or.inl n1
    · by_cases n2 : name = "nginx-error"
      · exact Or.inr (Or.inl n2)
      · by_cases n3 : name = "rails"
        · exact Or.inr (Or.inr n3)
        · rw [h4 n1 n2 n3] at hfn
          cases hfn
  · rintro (e | e | e)
    · exact ⟨_, h1 e⟩
    · exact ⟨_, h2 e⟩
    · exact ⟨_, h3 e⟩

/-- C18 at the names `rails`, `unknown-type` and the empty name. -/
theorem parsingFunctionForType_resolves_witness :
    parsingFunctionForType "rails" = Except.ok (fun unmarshal _ => parseRailsLine unmarshal) ∧
    parsingFunctionForType "unknown-type" = Except.error (goString "Parser type not supported.") ∧
    parsingFunctionForType "" = Except.error (goString "Parser type not supported.") :=
  ⟨(parsingFunctionForType_resolves "rails").2.2.1 rfl,
    (parsingFunctionForType_resolves "unknown-type").2.2.2.1 (by decide) (by decide) (by decide),
    (parsingFunctionForType_resolves "").2.2.2.1 (by decide) (by decide) (by decide)⟩

/-- C19: for a record whose `request` is a string that does not split into
exactly three blank-separated tokens, `parseRawRequest` returns the record with
the key `request` removed and every other field as it was; and for every record
whose `request` is a string, it returns a record without `request`. -/
theorem parseRawRequest_frame (lineData : Record) (req : Str)
    (h : lineData.get "request" = some (JsonValue.str req)) :
    ((Split req " ").length ≠ 3 →
      parseRawRequest lineData = some (lineData.delete "request") ∧
      (lineData.delete "request").get "request" = none ∧
      ∀ k : Str, k ≠ "request" → (lineData.delete "request").get k = lineData.get k) ∧
    (∃ r, parseRawRequest lineData = some r ∧ r.get "request" = none) := by
  constructor
  · intro h3
    refine ⟨parseRawRequest_of_not_three lineData req h h3, by simp, ?_⟩
    intro k hk
    simp [hk]
  · exact ⟨_, parseRawRequest_eq lineData req h, by simp⟩

/-- C19 at the two-token request `GET /` in a record that already has a `path`. -/
theorem parseRawRequest_frame_witness :
    ∃ r, parseRawRequest ((GoMap.empty.set "path" (JsonValue.str "/old")).set "request"
        (JsonValue.str "GET /")) = some r ∧
      r.get "request" = none ∧ r.get "method" = none ∧
      r.get "path" = some (JsonValue.str "/old") := by
  have h := (parseRawRequest_frame ((GoMap.empty.set "path" (JsonValue.str "/old")).set "request"
    (JsonValue.str "GET /")) "GET /" (by decide)).1 (by decide)
  exact ⟨_, h.1, by decide, by decide, by decide⟩

/-- C20: in a record the access parser returns, every decoded field whose key
is none of `request`, `timestamp`, `method`, `path`, `query`, `host`,
`log_type`, `tableName` and whose value is neither `""` nor `"-"` is present
with its decoded value; and every key of the record is a decoded key or one of
`host`, `log_type`, `method`, `path`, `query`, `tableName`. -/
theorem parseNginxAccessLine_pass_through (unmarshal : Unmarshal) (host line : Str)
    (r : Record) (hok : parseNginxAccessLine unmarshal host line = Outcome.ok r) :
    ∃ m, unmarshal line = Unmarshalled.object m ∧
    (∀ (k : Str) (v : JsonValue), m.get k = some v →
      k ≠ "request" → k ≠ "timestamp" → k ≠ "method" → k ≠ "path" → k ≠ "query" →
      k ≠ "host" → k ≠ "log_type" → k ≠ "tableName" →
      v ≠ JsonValue.str "" → v ≠ JsonValue.str "-" → r.get k = some v) ∧
    (∀ k : Str, r.get k ≠ none →
      m.get k ≠ none ∨ k = "host" ∨ k = "log_type" ∨ k = "method" ∨ k = "path" ∨
        k = "query" ∨ k = "tableName") := by
  obtain ⟨m1, req, ts, hu1, _, hts, hrec⟩ := parseNginxAccessLine_ok unmarshal host line r hok
  subst hrec
  refine ⟨m1, hu1, ?_⟩
  have hframe : ∀ k : Str, k ≠ "request" → k ≠ "timestamp" → k ≠ "method" → k ≠ "path" →
      k ≠ "query" → k ≠ "host" → k ≠ "log_type" → k ≠ "tableName" →
      (accessRecord host m1 req ts).get k = (m1.get k).filter (fun v => !isBlank v) := by
    intro k h1 h2 h3 h4 h5 h6 h7 h8
    rw [accessRecord_get, accessTimestamp_get_of_ne _ _ _ h2 h8,
      splitRequest_get_of_ne _ _ _ h3 h4 h5 h1]
    simp [h6, h7]
  constructor
  · intro k v hv h1 h2 h3 h4 h5 h6 h7 h8 hb1 hb2
    rw [hframe k h1 h2 h3 h4 h5 h6 h7 h8, hv]
    have hnb : isBlank v = false := by
      unfold isBlank
      simp [hb1, hb2]
    simp [Option.filter, hnb]
  · intro k hk
    by_cases h6 : k = "host"
    · exact Or.inr (Or.inl h6)
    by_cases h7 : k = "log_type"
    · exact Or.inr (Or.inr (Or.inl h7))
    by_cases h3 : k = "method"
    · exact Or.inr (Or.inr (Or.inr (Or.inl h3)))
    by_cases h4 : k = "path"
    · exact Or.inr (Or.inr (Or.inr (Or.inr (Or.inl h4))))
    by_cases h5 : k = "query"
    · exact Or.inr (Or.inr (Or.inr (Or.inr (Or.inr (Or.inl h5)))))
    by_cases h8 : k = "tableName"
    · exact Or.inr (Or.inr (Or.inr (Or.inr (Or.inr (Or.inr h8)))))
    left
    by_cases h2 : k = "timestamp"
    · rw [h2, hts]
      simp
    by_cases h1 : k = "request"
    · exfalso
      apply hk
      rw [h1, accessRecord_get, accessTimestamp_get_of_ne _ _ _ (by simp) (by simp)]
      simp
    intro hnone
    apply hk
    rw [hframe k h1 h2 h3 h4 h5 h6 h7 h8, hnone]
    rfl

/-- C20 at a line with the extra fields `status` and `user_agent`. -/
theorem parseNginxAccessLine_pass_through_witness :
    ∃ r, parseNginxAccessLine jsonUnmarshal "web1"
        "\x7b\"request\":\"GET / HTTP/1.1\",\"timestamp\":\"02/Jan/2016:03:04:05 +0000\",\"status\":200,\"user_agent\":\"curl\"\x7d"
        = Outcome.ok r ∧
      r.get "status" = some (JsonValue.num "200") ∧
      r.get "user_agent" = some (JsonValue.str "curl") := by
  have h := parseNginxAccessLine_pass_through jsonUnmarshal "web1"
    "\x7b\"request\":\"GET / HTTP/1.1\",\"timestamp\":\"02/Jan/2016:03:04:05 +0000\",\"status\":200,\"user_agent\":\"curl\"\x7d"
    _ rfl
  obtain ⟨m, hm, h, _⟩ := h
  have em : Unmarshalled.object _ = Unmarshalled.object m := hm
  injection em with em
  subst em
  exact ⟨_, rfl,
    h "status" (JsonValue.num "200") rfl (by decide) (by decide) (by decide) (by decide)
      (by decide) (by decide) (by decide) (by decide) (by decide) (by decide),
    h "user_agent" (JsonValue.str "curl") rfl (by decide) (by decide) (by decide) (by decide)
      (by decide) (by decide) (by decide) (by decide) (by decide) (by decide)⟩

end Logstalker
